import Mathlib

/-!
# Verification of the `knots` grid-diagram core

Shallow embedding of the repository's core algorithms and proofs about them:

* `src/diagram.rs` — the grid-diagram data model (`Diagram`), validation
  (`validate`), the Cromwell moves (`applyMove`), and the circuit extractor
  (`generate_knot`, embedded as `baseCircuit` / `insertCrossings`).
* `src/knot.rs` — the relaxation engine (`Knot.relax`, `Knot.reset`),
  with `f32` arithmetic idealized over `ℝ`.
* `src/graphics/polyline.rs` and `src/polyline.rs` — `Polyline::refine`
  (the two copies of `refine` in the repository are textually identical,
  so a single embedding `refine` covers both).

Grid cells are `Char`s exactly as in the source (`'x'`, `'o'`, `' '`).
-/

namespace Knots

/-- A grid diagram: a resolution `n` and an `n×n` matrix of cells,
mirroring `struct Diagram { resolution: usize, data: Vec<Vec<char>> }`. -/
structure Diagram where
  resolution : Nat
  data : List (List Char)
deriving DecidableEq

/-- The structural facts guaranteed by `Diagram::from_path` (the grid is
square) together with the data model of the spec (§3: a cell marker is one
of Empty/OverMark/UnderMark, i.e. `' '`/`'x'`/`'o'`). -/
def wellFormed (d : Diagram) : Prop :=
  d.data.length = d.resolution ∧
    ∀ r ∈ d.data, r.length = d.resolution ∧ ∀ c ∈ r, c = ' ' ∨ c = 'x' ∨ c = 'o'

instance (d : Diagram) : Decidable (wellFormed d) := by
  unfold wellFormed; infer_instance

/-- `Diagram::get_row`. -/
def getRow (d : Diagram) (i : Nat) : List Char :=
  d.data.getD i []

/-- `Diagram::get_column`. -/
def getColumn (d : Diagram) (j : Nat) : List Char :=
  d.data.map (fun row => row.getD j ' ')

/-- The cell at row `i`, column `j`. -/
def getCell (d : Diagram) (i : Nat) (j : Nat) : Char :=
  (d.data.getD i []).getD j ' '

/-- `Diagram::validate`: exactly one `'x'` and one `'o'` in every row and
every column. -/
def validate (d : Diagram) : Bool :=
  (List.range d.resolution).all fun index =>
    ((getRow d index).count 'x' == 1) && ((getRow d index).count 'o' == 1) &&
      ((getColumn d index).count 'x' == 1) && ((getColumn d index).count 'o' == 1)

/-- `Diagram::convert_to_absolute_index`: `index = i + j * n`. -/
def convertToAbsoluteIndex (n i j : Nat) : Nat := i + j * n

/-- The position of the first occurrence of `c` (Rust `String::find` on a
row/column string; on the valid domain the character is always present). -/
def findChar (c : Char) (l : List Char) : Nat :=
  l.findIdx (· == c)

/-- Row of the `'x'` in column `j`. -/
def xRow (d : Diagram) (j : Nat) : Nat := findChar 'x' (getColumn d j)

/-- Row of the `'o'` in column `j`. -/
def oRow (d : Diagram) (j : Nat) : Nat := findChar 'o' (getColumn d j)

/-- Column of the `'x'` in row `i`. -/
def xCol (d : Diagram) (i : Nat) : Nat := findChar 'x' (getRow d i)

/-- Column of the `'o'` in row `i`. -/
def oCol (d : Diagram) (i : Nat) : Nat := findChar 'o' (getRow d i)

/-- The column-successor map of the diagram: from column `j`, follow the
row of `j`'s `'o'` to that row's `'x'`; this is the column the circuit
walk of `generate_knot` visits after column `j`. -/
def sigmaCol (d : Diagram) (j : Nat) : Nat := xCol d (oRow d j)

/-- The walk loop of `generate_knot` (lines 387–429 of `diagram.rs`).
State: current relative index `e`, the traversal direction flag, and the
accumulated `knot_topology`.  The source loops `while keep_going`; on the
valid domain the walk provably terminates, and `fuel` is chosen large
enough that the fuel-out branch is never taken there. -/
def baseCircuitAux (d : Diagram) (tie : Nat) :
    Nat → Nat → Bool → List Nat → List Nat
  | 0, _, _, topology => topology
  | fuel + 1, e, traverseHorizontal, topology =>
    let nextIndex :=
      if traverseHorizontal then findChar 'x' (getRow d e)
      else findChar 'o' (getColumn d e)
    let absoluteIndex :=
      if traverseHorizontal then convertToAbsoluteIndex d.resolution e nextIndex
      else convertToAbsoluteIndex d.resolution nextIndex e
    if absoluteIndex ∈ topology then topology ++ [tie]
    else baseCircuitAux d tie fuel nextIndex (!traverseHorizontal)
      (topology ++ [absoluteIndex])

/-- The base circuit (`knot_topology` before any crossing insertion):
start at column 0's `'x'` and `'o'`, then walk alternating row/column
steps until an index repeats, closing with `tie`. -/
def baseCircuit (d : Diagram) : List Nat :=
  let s := findChar 'x' (getColumn d 0)
  let e := findChar 'o' (getColumn d 0)
  baseCircuitAux d s (2 * d.resolution + 2) e true
    [convertToAbsoluteIndex d.resolution s 0, convertToAbsoluteIndex d.resolution e 0]

/-- `rows`: the base circuit with its first element removed. -/
def knotRows (d : Diagram) : List Nat := (baseCircuit d).drop 1

/-- `cols`: the base circuit with its last element removed. -/
def knotCols (d : Diagram) : List Nat := (baseCircuit d).dropLast

/-- Rust `slice::chunks(2)` specialised to the even-length lists the
extractor feeds it: consecutive disjoint pairs (an odd trailing element,
on which the source would panic reading `chunk[1]`, is dropped). -/
def chunks2 : List Nat → List (Nat × Nat)
  | a :: b :: rest => (a, b) :: chunks2 rest
  | _ => []

/-- The crossing test of lines 481: with `(cs_i, cs_j)`, `(ce_i, ce_j)`
the decoded (direction-normalised) column-edge endpoints and `(rs_i,
rs_j)`, `(re_i, re_j)` the decoded (normalised) row-edge endpoints, the
edges cross when `cs_j > rs_j && cs_j < re_j && cs_i < rs_i && ce_i >
rs_i`. -/
def rowCrossesColumn (n colS colE rowS rowE : Nat) : Prop :=
  colS / n > rowS / n ∧ colS / n < rowE / n ∧ colS % n < rowS % n ∧ colE % n > rowS % n

instance (n colS colE rowS rowE : Nat) :
    Decidable (rowCrossesColumn n colS colE rowS rowE) := by
  unfold rowCrossesColumn; infer_instance

/-- The body of the crossing-detection inner loop (lines 471–486): for a
(already direction-normalised) column-edge from `colS` up to `colE`,
collect `(rs_i, intersect)` for every row-edge that crosses it. -/
def columnIntersections (n : Nat) (rows : List (Nat × Nat)) (colS colE : Nat) :
    List (Nat × Nat) :=
  rows.filterMap fun rowChunk =>
    let rowS := if rowChunk.1 > rowChunk.2 then rowChunk.2 else rowChunk.1
    let rowE := if rowChunk.1 > rowChunk.2 then rowChunk.1 else rowChunk.2
    if rowCrossesColumn n colS colE rowS rowE then
      some (rowS % n, convertToAbsoluteIndex n (rowS % n) (colS / n))
    else none

/-- The splice loop (lines 503–511): scan `topology` for the first node
equal to either endpoint, then insert every element of `inserts` at the
position right after it (each `Vec::insert` lands at the same position, so
the block ends up reversed in place). -/
def spliceCode (topology : List Nat) (colS colE : Nat) (inserts : List Nat) :
    List Nat :=
  match topology.findIdx? (fun node => node == colS || node == colE) with
  | some index => inserts.foldl (fun t ix => t.insertIdx (index + 1) ix) topology
  | none => topology

/-- The key order of `intersections.sort_by_key(|k| k.0)`. -/
def keyLE (a b : Nat × Nat) : Prop := a.1 ≤ b.1

instance : DecidableRel keyLE := fun a b => Nat.decLe a.1 b.1

instance : IsTotal (Nat × Nat) keyLE := ⟨fun a b => Nat.le_total a.1 b.1⟩

instance : IsTrans (Nat × Nat) keyLE := ⟨fun _ _ _ => Nat.le_trans⟩

/-- Stable sort ascending on the first component
(`intersections.sort_by_key(|k| k.0)`; `sort_by_key` is a stable sort and
so is insertion sort). -/
def sortByKey (l : List (Nat × Nat)) : List (Nat × Nat) :=
  List.insertionSort keyLE l

/-- One iteration of the outer crossing loop (lines 452–513) over a single
column chunk: normalise the edge direction, gather and sort the
intersections, reverse them when the edge was *not* flipped, splice them
into the circuit, and append the new crossing indices to `lifted`. -/
def processColumn (n : Nat) (rows : List (Nat × Nat))
    (st : List Nat × List Nat) (colChunk : Nat × Nat) : List Nat × List Nat :=
  let colS := if colChunk.1 > colChunk.2 then colChunk.2 else colChunk.1
  let colE := if colChunk.1 > colChunk.2 then colChunk.1 else colChunk.2
  let orientedUpwards : Bool := colChunk.1 > colChunk.2
  let inters := columnIntersections n rows colS colE
  let sorted := sortByKey inters
  let ordered := if orientedUpwards then sorted else sorted.reverse
  (spliceCode st.1 colS colE (ordered.map (·.2)), st.2 ++ inters.map (·.2))

/-- The full crossing-insertion phase: fold `processColumn` over the
column chunks, starting from the base circuit and an empty `lifted`. -/
def insertCrossings (n : Nat) (cols rows : List (Nat × Nat))
    (topology : List Nat) : List Nat × List Nat :=
  cols.foldl (processColumn n rows) (topology, [])

/-- The resolved circuit and the `lifted` set produced by `generate_knot`
just before the 3D conversion. -/
def resolvedCircuit (d : Diagram) : List Nat × List Nat :=
  insertCrossings d.resolution (chunks2 (knotCols d)) (chunks2 (knotRows d))
    (baseCircuit d)

/-- The absolute index of the `'x'` cell of column `c`. -/
def xCellAbs (d : Diagram) (c : Nat) : Nat :=
  convertToAbsoluteIndex d.resolution (xRow d c) c

/-- The absolute index of the `'o'` cell of column `c`. -/
def oCellAbs (d : Diagram) (c : Nat) : Nat :=
  convertToAbsoluteIndex d.resolution (oRow d c) c

/-- The marked cells of the first `t` columns on the walk's column orbit,
in the order the walk pushes them. -/
def visitedCells (d : Diagram) (t : Nat) : List Nat :=
  ((List.range t).map fun k => (sigmaCol d)^[k] 0).flatMap fun c =>
    [xCellAbs d c, oCellAbs d c]

/-- The diagram's matching is a single cycle through all `n` columns: the
column-successor orbit of column 0 visits `n` distinct columns and then
returns to column 0.  (A valid diagram that violates this is a
multi-component link.) -/
def connectedDiagram (d : Diagram) : Prop :=
  ((List.range d.resolution).map fun k => (sigmaCol d)^[k] 0).Nodup ∧
    (sigmaCol d)^[d.resolution] 0 = 0

instance (d : Diagram) : Decidable (connectedDiagram d) := by
  unfold connectedDiagram; infer_instance

/-- The spec's transversality condition (claim C2), as worded: the
row-edge's row index lies strictly between the column-edge's row-index
bounds, and the column-edge's column index lies strictly between the
row-edge's column-index bounds. -/
def crossesTransversally (n : Nat) (colChunk rowChunk : Nat × Nat) : Prop :=
  min (colChunk.1 % n) (colChunk.2 % n) < rowChunk.1 % n ∧
    rowChunk.1 % n < max (colChunk.1 % n) (colChunk.2 % n) ∧
    min (rowChunk.1 / n) (rowChunk.2 / n) < colChunk.1 / n ∧
    colChunk.1 / n < max (rowChunk.1 / n) (rowChunk.2 / n)

/-! ## Cromwell moves -/

/-- The direction of a `Translation` move. -/
inductive Direction | up | down | left | right
deriving DecidableEq

/-- The axis of a `Commutation` move. -/
inductive Axis | row | column
deriving DecidableEq

/-- The cardinality of a `Stabilization` move. -/
inductive Cardinality | nw | sw | ne | se
deriving DecidableEq

/-- The Cromwell moves. -/
inductive CromwellMove
  | translation (direction : Direction)
  | commutation (axis : Axis) (startIndex : Nat)
  | stabilization (cardinality : Cardinality) (i : Nat) (j : Nat)

/-- The typed errors `apply_move` reports (the source uses `&'static str`
messages; the spec names them as listed in §7). -/
inductive MoveError | noAdjacentLine | interleavedLines | notAnOverMark
deriving DecidableEq

/-- Swap the entries at `a` and `b` of a list (`Vec::swap`). -/
def swapEntries (l : List Char) (a b : Nat) : List Char :=
  (l.set a (l.getD b ' ')).set b (l.getD a ' ')

/-- `Diagram::exchange_rows`. -/
def exchangeRows (d : Diagram) (a b : Nat) : Diagram :=
  ⟨d.resolution, (d.data.set a (d.data.getD b [])).set b (d.data.getD a [])⟩

/-- `Diagram::exchange_columns`. -/
def exchangeColumns (d : Diagram) (a b : Nat) : Diagram :=
  ⟨d.resolution, d.data.map fun row => swapEntries row a b⟩

/-- The positions of the alphabetic cells of a line
(`match_indices(char::is_alphabetic)`; on the spec's cell alphabet
`{' ', 'x', 'o'}` a cell is alphabetic exactly when it is a mark). -/
def markPositions (l : List Char) : List Nat :=
  (List.range l.length).filter fun k => l.getD k ' ' == 'x' || l.getD k ' ' == 'o'

/-- `Diagram::are_interleaved`: the chain of interval tests on the two
mark positions of each line (the source `assert_eq!`s that each line has
exactly two alphabetic cells, which holds on the valid domain). -/
def areInterleaved (lineA lineB : List Char) : Bool :=
  let matchesA := markPositions lineA
  let matchesB := markPositions lineB
  let aStart := matchesA.getD 0 0
  let aEnd := matchesA.getD 1 0
  let bStart := matchesB.getD 0 0
  let bEnd := matchesB.getD 1 0
  if aStart > bStart ∧ aEnd < bEnd then false
  else if bStart > aStart ∧ bEnd < aEnd then false
  else if aEnd < bStart then false
  else if aStart > bEnd then false
  else if bEnd < aStart then false
  else if bStart > aEnd then false
  else true

/-- The line (row or column) at `i` along the given axis. -/
def lineOf (d : Diagram) (axis : Axis) (i : Nat) : List Char :=
  match axis with
  | .row => getRow d i
  | .column => getColumn d i

/-- The successful outcome of a `Commutation` move: the two adjacent
lines at `startIndex` and `startIndex + 1` exchanged. -/
def commuted (d : Diagram) (axis : Axis) (startIndex : Nat) : Diagram :=
  match axis with
  | .row => exchangeRows d startIndex (startIndex + 1)
  | .column => exchangeColumns d startIndex (startIndex + 1)

/-- The row inserted by a stabilization: a blank row of the (already
incremented) resolution with the 2×2 block's two marks. -/
def stabExtraRow (resolution j : Nat) (atJ atJ1 : Char) : List Char :=
  ((List.replicate resolution ' ').set j atJ).set (j + 1) atJ1

/-- The `Stabilization` branch of `apply_move` (lines 175–233): insert a
blank column next to column `j`, replace the `'x'` at `(i, j)` by a 2×2
block according to the cardinality, and insert the block's extra row. -/
def stabilized (d : Diagram) (cardinality : Cardinality) (i j : Nat) : Diagram :=
  let withCol : List (List Char) :=
    match cardinality with
    | .nw | .sw => d.data.map fun row => row.insertIdx (j + 1) ' '
    | _ => d.data.map fun row => row.insertIdx j ' '
  let resolution := d.resolution + 1
  match cardinality with
  | .nw =>
    let rows :=
      withCol.set i (((withCol.getD i []).set j ' ').set (j + 1) 'x')
    ⟨resolution, rows.insertIdx (i + 1) (stabExtraRow resolution j 'x' 'o')⟩
  | .sw =>
    let rows :=
      withCol.set i (((withCol.getD i []).set j ' ').set (j + 1) 'x')
    ⟨resolution, rows.insertIdx i (stabExtraRow resolution j 'x' 'o')⟩
  | .ne =>
    let rows :=
      withCol.set i (((withCol.getD i []).set j 'x').set (j + 1) ' ')
    ⟨resolution, rows.insertIdx (i + 1) (stabExtraRow resolution j 'o' 'x')⟩
  | .se =>
    let rows :=
      withCol.set i (((withCol.getD i []).set j 'x').set (j + 1) ' ')
    ⟨resolution, rows.insertIdx i (stabExtraRow resolution j 'o' 'x')⟩

/-- The position of the row a stabilization inserts: below row `i` for
NW/NE, above it for SW/SE. -/
def rowInsertPos (cardinality : Cardinality) (i : Nat) : Nat :=
  match cardinality with
  | .nw | .ne => i + 1
  | _ => i

/-- The position of the column a stabilization inserts: right of column
`j` for NW/SW, left of it for NE/SE. -/
def colInsertPos (cardinality : Cardinality) (j : Nat) : Nat :=
  match cardinality with
  | .nw | .sw => j + 1
  | _ => j

/-- Where an original row index lands after the stabilization's row
insertion. -/
def stabShiftRow (cardinality : Cardinality) (i iOld : Nat) : Nat :=
  if rowInsertPos cardinality i ≤ iOld then iOld + 1 else iOld

/-- Where an original column index lands after the stabilization's column
insertion. -/
def stabShiftCol (cardinality : Cardinality) (j jOld : Nat) : Nat :=
  if colInsertPos cardinality j ≤ jOld then jOld + 1 else jOld

/-- One row cyclic rotation etc. — the `Translation` branch. -/
def translated (d : Diagram) (direction : Direction) : Diagram :=
  match direction with
  | .up => ⟨d.resolution, d.data.drop 1 ++ d.data.take 1⟩
  | .down => ⟨d.resolution, d.data.getLast?.toList ++ d.data.dropLast⟩
  | .left => ⟨d.resolution, d.data.map fun row => row.drop 1 ++ row.take 1⟩
  | .right => ⟨d.resolution, d.data.map fun row => row.getLast?.toList ++ row.dropLast⟩

/-- `Diagram::apply_move`.  The Rust method mutates `self` and returns a
`Result`; here the pair `(error?, diagram)` is the reported error (if
any) together with the diagram state after the call, so "the move failed
and the grid is unchanged" is expressible. -/
def applyMove (d : Diagram) (move : CromwellMove) : Option MoveError × Diagram :=
  match move with
  | .translation direction => (none, translated d direction)
  | .commutation axis startIndex =>
    if startIndex = d.resolution - 1 then (some .noAdjacentLine, d)
    else if areInterleaved (lineOf d axis startIndex) (lineOf d axis (startIndex + 1)) then
      (some .interleavedLines, d)
    else (none, commuted d axis startIndex)
  | .stabilization cardinality i j =>
    if getCell d i j ≠ 'x' then (some .notAnOverMark, d)
    else (none, stabilized d cardinality i j)

/-! ## 3D geometry and the relaxation engine

`cgmath::Vector3<f32>` is idealized as a triple of real numbers; the
`f32` arithmetic of the source is modelled by exact real arithmetic. -/

/-- A 3D vector (`Vector3<f32>`, idealized over `ℝ`). -/
structure V3 where
  x : ℝ
  y : ℝ
  z : ℝ

noncomputable instance : Add V3 := ⟨fun a b => ⟨a.x + b.x, a.y + b.y, a.z + b.z⟩⟩
noncomputable instance : Sub V3 := ⟨fun a b => ⟨a.x - b.x, a.y - b.y, a.z - b.z⟩⟩
instance : Zero V3 := ⟨⟨0, 0, 0⟩⟩

/-- Componentwise scalar multiplication (`Vector3<f32> * f32`). -/
noncomputable def V3.smul (c : ℝ) (v : V3) : V3 := ⟨c * v.x, c * v.y, c * v.z⟩

/-- Componentwise scalar division (`Vector3<f32> / f32`). -/
noncomputable def V3.divScalar (v : V3) (c : ℝ) : V3 := ⟨v.x / c, v.y / c, v.z / c⟩

/-- `InnerSpace::magnitude`. -/
noncomputable def V3.magnitude (v : V3) : ℝ := Real.sqrt (v.x ^ 2 + v.y ^ 2 + v.z ^ 2)

/-- `InnerSpace::normalize`: `v * (1 / ‖v‖)`. -/
noncomputable def V3.normalize (v : V3) : V3 := V3.smul (1 / v.magnitude) v

/-- Modelled from the spec: the small epsilon guard of §4.4 ("Skip force
contributions when `r` is below a small epsilon").  The constant lives in
`constants.rs`, which is referenced by `knot.rs` but absent from the
sources at hand; its exact value decides none of the claims. -/
noncomputable def EPSILON : ℝ := 0.001

/-- The relaxation state (`struct Knot`): the owned polyline (vertex
list), the anchors, and per-vertex position/velocity/acceleration. -/
structure Knot where
  rope : List V3
  anchors : List V3
  p : List V3
  v : List V3
  a : List V3

/-- `Knot::new`: seed every per-vertex buffer from the polyline. -/
def Knot.new (rope : List V3) : Knot :=
  ⟨rope, rope, rope, List.replicate rope.length 0, List.replicate rope.length 0⟩

/-- `mass` in `relax` (fixed, `1.0`). -/
noncomputable def mass : ℝ := 1.0

/-- `damping` in `relax` (fixed, `0.95`). -/
noncomputable def damping : ℝ := 0.95

/-- `starting_length` in `relax` (fixed, `0.5`). -/
noncomputable def startingLength : ℝ := 0.5

/-- `d_max`, the per-step displacement cap: `starting_length * 0.025`. -/
noncomputable def dMax : ℝ := startingLength * 0.025

/-- One summand of the all-pairs force loop of `relax` (lines 145–180 of
`knot.rs`): attraction `H * r^(1+β)` toward the two topological
neighbours, repulsion `K * r^(-(2+α))` away from everyone else, skipped
below `EPSILON`. -/
noncomputable def forceContrib (p : List V3) (i other : Nat) : V3 :=
  let len := p.length
  let neighborL := if i = 0 then len - 1 else i - 1
  let neighborR := if i = len - 1 then 0 else i + 1
  let center := p.getD i 0
  if other ≠ i then
    let otherV := p.getD other 0
    if other = neighborL ∨ other = neighborR then
      let direction := otherV - center
      let r := direction.magnitude
      if |r| < EPSILON then 0
      else V3.smul (1.0 * Real.rpow r (1.0 + 1.0)) direction.normalize
    else
      let direction := center - otherV
      let r := direction.magnitude
      if |r| < EPSILON then 0
      else V3.smul (0.5 * Real.rpow r (-(2.0 + 4.0))) direction.normalize
  else 0

/-- The accumulated force on vertex `i` (the inner `for other_index` loop). -/
noncomputable def totalForce (p : List V3) (i : Nat) : V3 :=
  (List.range p.length).foldl (fun f other => f + forceContrib p i other) 0

/-- The displacement clamp of `relax` (lines 214–221): a vertex moves at
most `d_max` per step. -/
noncomputable def clampDisp (v : V3) : V3 :=
  if v.magnitude > dMax then V3.smul dMax v.normalize else v

/-- `Knot::relax`: accumulate forces into the accelerations, integrate
velocities with damping and zero the accelerations, integrate positions
under the displacement clamp, and write the new positions back into the
owned polyline. -/
noncomputable def Knot.relax (k : Knot) : Knot :=
  let len := k.p.length
  let a1 := (List.range len).map fun i => k.a.getD i 0 + (totalForce k.p i).divScalar mass
  let v1 := (List.range len).map fun i => V3.smul damping (k.v.getD i 0 + a1.getD i 0)
  let p1 := (List.range len).map fun i => k.p.getD i 0 + clampDisp (v1.getD i 0)
  ⟨p1, k.anchors, p1, v1, List.replicate len 0⟩

/-- `Knot::reset`: write the anchors back into the polyline and the
position buffer and zero the velocities and accelerations. -/
noncomputable def Knot.reset (k : Knot) : Knot :=
  ⟨k.anchors, k.anchors, k.anchors,
    List.replicate k.anchors.length 0, List.replicate k.anchors.length 0⟩

/-! ## Polyline refinement -/

/-- `Segment::point_at`: the point at parameter `t` from `a` to `b`. -/
noncomputable def pointAt (a b : V3) (t : ℝ) : V3 := a + V3.smul t (b - a)

/-- `Polyline::refine` (identical in `src/polyline.rs` and
`src/graphics/polyline.rs`): walk the consecutive segments, pushing the
segment start, `floor(L / msl) - 1` interpolated interior points, and the
segment end.  (The Rust `as usize` cast of the nonnegative `f32` ratio is
the natural floor `⌊·⌋₊`.) -/
noncomputable def refine (verts : List V3) (msl : ℝ) : List V3 :=
  (List.range (verts.length - 1)).foldl
    (fun refined index =>
      let a := verts.getD index 0
      let b := verts.getD (index + 1) 0
      let numberOfSubdivisions := ⌊(b - a).magnitude / msl⌋₊
      ((refined ++ [a]) ++
          (List.range' 1 (numberOfSubdivisions - 1)).map
            (fun division =>
              pointAt a b ((division : ℝ) / (numberOfSubdivisions : ℝ)))) ++
        [b])
    []

/-- The run of vertices `refine` pushes for the segment between vertices
`index` and `index + 1`: the segment start, the interpolated interior
points, and the segment end. -/
noncomputable def refineBlock (verts : List V3) (msl : ℝ) (index : Nat) : List V3 :=
  let a := verts.getD index 0
  let b := verts.getD (index + 1) 0
  let numberOfSubdivisions := ⌊(b - a).magnitude / msl⌋₊
  a :: ((List.range' 1 (numberOfSubdivisions - 1)).map
      (fun division =>
        pointAt a b ((division : ℝ) / (numberOfSubdivisions : ℝ))) ++
    [b])

/-! ## Spec-side descriptions (for refinement claims)

These definitions follow the wording of the specification, to be compared
with the embeddings above, which follow the source. -/

/-- Spec §4.2 step 3, as worded: sort the gathered intersections by
row-index ascending, reverse that order exactly when the column-edge's
endpoints had to be swapped during direction normalisation, and splice
them — order preserved — immediately after whichever endpoint of the
column-edge is encountered first in a forward scan of the circuit. -/
def spliceSpec (topology : List Nat) (colS colE : Nat)
    (inters : List (Nat × Nat)) (orientedUpwards : Bool) : List Nat :=
  let sorted := sortByKey inters
  let physOrder := if orientedUpwards then sorted.reverse else sorted
  match topology.findIdx? (fun node => node == colS || node == colE) with
  | some index =>
    topology.take (index + 1) ++ physOrder.map (·.2) ++ topology.drop (index + 1)
  | none => topology

/-- Spec §4.3 as worded: for each consecutive segment of length `L`, the
refined polyline retains the two original endpoints and inserts
`floor(L / minimum_segment_length) - 1` additional equally-spaced
interior points by linear interpolation (`(1-t)·a + t·b`) between the
segment's endpoints — none when the floor is at most 1. -/
noncomputable def refineSpec (verts : List V3) (msl : ℝ) : List V3 :=
  (List.range (verts.length - 1)).flatMap fun index =>
    let a := verts.getD index 0
    let b := verts.getD (index + 1) 0
    let subdivisions := ⌊(b - a).magnitude / msl⌋₊
    a :: ((List.range' 1 (subdivisions - 1)).map
        (fun k =>
          V3.smul (1 - (k : ℝ) / (subdivisions : ℝ)) a +
            V3.smul ((k : ℝ) / (subdivisions : ℝ)) b) ++
      [b])

/-- The spec's interleaving condition for a `Commutation` (§4.1, claim
C5), as worded: treat each line's two mark positions as an interval
`[min, max]` (`markPositions` lists the positions in ascending order, so
its first and second entries are that minimum and maximum); the lines are
interleaved unless one interval is fully (strictly) contained in, fully
precedes, or fully follows the other. -/
def interleavedSpec (lineA lineB : List Char) : Prop :=
  let aS := (markPositions lineA).getD 0 0
  let aE := (markPositions lineA).getD 1 0
  let bS := (markPositions lineB).getD 0 0
  let bE := (markPositions lineB).getD 1 0
  ¬((bS < aS ∧ aE < bE) ∨ (aS < bS ∧ bE < aE) ∨ aE < bS ∨ bE < aS)

instance (a b : List Char) : Decidable (interleavedSpec a b) := by
  unfold interleavedSpec; infer_instance

/-! ## Concrete diagrams -/

/-- The 2×2 diagram with `'x'` at (0,0) and (1,1), `'o'` at (1,0) and (0,1). -/
def unknotDiagram : Diagram := ⟨2, [['x', 'o'], ['o', 'x']]⟩

/-- A 4×4 diagram made of two disjoint 2×2 blocks: every row and column
has exactly one `'x'` and one `'o'`, but the mark matching splits into two
cycles (a two-component link). -/
def twoComponentDiagram : Diagram :=
  ⟨4, [['x', 'o', ' ', ' '],
       ['o', 'x', ' ', ' '],
       [' ', ' ', 'x', 'o'],
       [' ', ' ', 'o', 'x']]⟩

/-- The standard 5×5 trefoil grid diagram. -/
def trefoilDiagram : Diagram :=
  ⟨5, [['x', ' ', ' ', 'o', ' '],
       [' ', 'x', ' ', ' ', 'o'],
       ['o', ' ', 'x', ' ', ' '],
       [' ', 'o', ' ', 'x', ' '],
       [' ', ' ', 'o', ' ', 'x']]⟩

/-! ## Helper lemmas about `V3` -/

theorem V3.sub_def (a b : V3) : a - b = ⟨a.x - b.x, a.y - b.y, a.z - b.z⟩ := rfl

theorem V3.add_def (a b : V3) : a + b = ⟨a.x + b.x, a.y + b.y, a.z + b.z⟩ := rfl

theorem V3.add_sub_cancel_left (a b : V3) : (a + b) - a = b := by
  cases a; cases b; simp [V3.sub_def, V3.add_def]

theorem V3.magnitude_nonneg (v : V3) : 0 ≤ v.magnitude := Real.sqrt_nonneg _

theorem V3.magnitude_smul (c : ℝ) (v : V3) :
    (V3.smul c v).magnitude = |c| * v.magnitude := by
  unfold V3.magnitude V3.smul
  have h : (c * v.x) ^ 2 + (c * v.y) ^ 2 + (c * v.z) ^ 2 =
      c ^ 2 * (v.x ^ 2 + v.y ^ 2 + v.z ^ 2) := by ring
  rw [h, Real.sqrt_mul (sq_nonneg c), Real.sqrt_sq_eq_abs]

theorem dMax_pos : (0 : ℝ) < dMax := by unfold dMax startingLength; norm_num

/-- The clamp of `relax` caps the length of the applied displacement. -/
theorem magnitude_clampDisp_le (v : V3) : (clampDisp v).magnitude ≤ dMax := by
  unfold clampDisp
  by_cases h : v.magnitude > dMax
  · simp only [h, if_pos]
    have hm : 0 < v.magnitude := lt_trans dMax_pos h
    rw [V3.normalize, V3.magnitude_smul, V3.magnitude_smul]
    rw [abs_of_pos dMax_pos, abs_of_pos (by positivity : (0:ℝ) < 1 / v.magnitude)]
    rw [one_div, inv_mul_cancel₀ (ne_of_gt hm), mul_one]
  · simp only [h, if_neg, not_false_iff]
    exact le_of_not_lt h

theorem getD_map_range (n : Nat) (f : Nat → V3) (i : Nat) (h : i < n) :
    ((List.range n).map f).getD i 0 = f i := by
  rw [List.getD_eq_getElem _ _ (by simpa using h)]
  simp

/-- **C7.** For every knot state and every single `relax()` call, each
vertex's net per-step displacement — the distance between its position
before and after the call — is at most `d_max` (= `0.5 * 0.025`). -/
theorem relax_displacement_le_dMax (k : Knot) (i : Nat) (h : i < k.p.length) :
    ((Knot.relax k).p.getD i 0 - k.p.getD i 0).magnitude ≤ dMax := by
  show ((Knot.relax k).p.getD i 0 - k.p.getD i 0).magnitude ≤ dMax
  unfold Knot.relax
  simp only
  rw [getD_map_range _ _ _ h, V3.add_sub_cancel_left]
  exact magnitude_clampDisp_le _

/-- Witness for C7 at a concrete one-vertex knot. -/
theorem relax_displacement_le_dMax_witness :
    0 < (Knot.new [(0 : V3)]).p.length ∧
      ((Knot.relax (Knot.new [(0 : V3)])).p.getD 0 0 -
          (Knot.new [(0 : V3)]).p.getD 0 0).magnitude ≤ dMax :=
  ⟨by simp [Knot.new],
    relax_displacement_le_dMax (Knot.new [(0 : V3)]) 0 (by simp [Knot.new])⟩

theorem relax_anchors (k : Knot) : (Knot.relax k).anchors = k.anchors := rfl

theorem relax_iterate_anchors (k : Knot) (t : Nat) :
    (Knot.relax^[t] k).anchors = k.anchors := by
  induction t with
  | zero => rfl
  | succ t ih => rw [Function.iterate_succ_apply', relax_anchors, ih]

/-- **C8.** For every knot and every number of successive `relax()`
calls, a subsequent `reset()` restores the position array and the owned
polyline's vertices exactly to the anchors recorded at construction and
zeroes every velocity and acceleration — i.e. it restores the whole
state produced by `Knot::new`. -/
theorem reset_after_relax_iterate (rope : List V3) (t : Nat) :
    Knot.reset (Knot.relax^[t] (Knot.new rope)) = Knot.new rope := by
  unfold Knot.reset
  rw [relax_iterate_anchors]
  rfl

/-! ## The splice step (C3) -/

theorem insertIdx_eq_take_cons_drop {α : Type} :
    ∀ (k : Nat) (l : List α) (a : α), k ≤ l.length →
      l.insertIdx k a = l.take k ++ a :: l.drop k := by
  intro k
  induction k with
  | zero => intro l a _; simp
  | succ k ih =>
    intro l a h
    cases l with
    | nil => simp at h
    | cons x xs =>
      simp only [List.insertIdx_succ_cons, List.take_succ_cons, List.drop_succ_cons,
        List.cons_append]
      rw [ih xs a (by simpa using h)]

/-- Repeatedly calling `Vec::insert` at the same position `q` deposits the
inserted elements in reverse order between the two halves of the list. -/
theorem foldl_insertIdx (q : Nat) :
    ∀ (l : List Nat) (topology : List Nat), q ≤ topology.length →
      l.foldl (fun t ix => t.insertIdx q ix) topology =
        topology.take q ++ l.reverse ++ topology.drop q := by
  intro l
  induction l with
  | nil => intro topology _; simp
  | cons x xs ih =>
    intro topology h
    simp only [List.foldl_cons]
    rw [ih (topology.insertIdx q x) (by rw [List.length_insertIdx q _ h]; omega)]
    rw [insertIdx_eq_take_cons_drop q topology x h]
    have hlen : (topology.take q).length = q := by
      simp [List.length_take]; omega
    rw [List.take_append_eq_append_take, hlen]
    simp only [Nat.sub_self, List.take_zero, List.append_nil, List.take_take,
      Nat.min_self]
    have hdrop : (topology.take q ++ x :: topology.drop q).drop q =
        x :: topology.drop q := by
      have := List.drop_left (topology.take q) (x :: topology.drop q)
      rwa [hlen] at this
    rw [hdrop]
    simp

/-- **C3.** For every circuit state and column chunk, the splice step of
`generate_knot` — sort ascending on the row index, reverse when the
edge was *not* flipped, then repeatedly `insert` after the first endpoint
found (which re-reverses the block) — produces exactly the circuit
described by the spec: the sorted intersections, reversed exactly when
the edge's endpoints were swapped during normalisation (hence laid out in
the physical traversal order of the original edge direction), spliced
order-preserved immediately after the first endpoint encountered in a
forward scan; moreover the gathered intersections are indeed sorted
ascending on the row index. -/
theorem processColumn_splices_as_specified (n : Nat) (rows : List (Nat × Nat))
    (st : List Nat × List Nat) (colChunk : Nat × Nat) :
    (processColumn n rows st colChunk).1 =
      spliceSpec st.1
        (if colChunk.1 > colChunk.2 then colChunk.2 else colChunk.1)
        (if colChunk.1 > colChunk.2 then colChunk.1 else colChunk.2)
        (columnIntersections n rows
          (if colChunk.1 > colChunk.2 then colChunk.2 else colChunk.1)
          (if colChunk.1 > colChunk.2 then colChunk.1 else colChunk.2))
        (decide (colChunk.1 > colChunk.2)) ∧
      List.Sorted keyLE
        (sortByKey (columnIntersections n rows
          (if colChunk.1 > colChunk.2 then colChunk.2 else colChunk.1)
          (if colChunk.1 > colChunk.2 then colChunk.1 else colChunk.2))) := by
  constructor
  · unfold processColumn spliceSpec spliceCode
    simp only
    cases hfind : st.1.findIdx?
        (fun node =>
          node == (if colChunk.1 > colChunk.2 then colChunk.2 else colChunk.1) ||
            node == (if colChunk.1 > colChunk.2 then colChunk.1 else colChunk.2)) with
    | none => rfl
    | some index =>
      have hq : index < st.1.length :=
        (List.findIdx?_eq_some_iff_findIdx_eq.mp hfind).1
      dsimp only
      rw [foldl_insertIdx (index + 1) _ st.1 (by omega)]
      by_cases hdir : colChunk.1 > colChunk.2
      · simp [hdir]
      · simp [hdir, List.map_reverse]
  · exact List.sorted_insertionSort keyLE _

/-! ## Polyline refinement (C9, C10) -/

theorem foldl_triple_append {α β : Type} (g1 g2 g3 : α → List β) :
    ∀ (l : List α) (init : List β),
      l.foldl (fun acc x => ((acc ++ g1 x) ++ g2 x) ++ g3 x) init =
        init ++ l.flatMap (fun x => g1 x ++ (g2 x ++ g3 x)) := by
  intro l
  induction l with
  | nil => intro init; simp
  | cons x xs ih =>
    intro init
    rw [List.foldl_cons, ih, List.flatMap_cons]
    simp [List.append_assoc]

theorem flatMap_congr {α β : Type} {l : List α} {f g : α → List β}
    (h : ∀ x ∈ l, f x = g x) : l.flatMap f = l.flatMap g := by
  induction l with
  | nil => rfl
  | cons x xs ih =>
    simp only [List.flatMap_cons, h x (List.mem_cons_self x xs)]
    rw [ih fun y hy => h y (List.mem_cons_of_mem x hy)]

/-- `refine` is the concatenation of the per-segment runs. -/
theorem refine_eq_blocks (verts : List V3) (msl : ℝ) :
    refine verts msl =
      (List.range (verts.length - 1)).flatMap (refineBlock verts msl) := by
  unfold refine
  rw [foldl_triple_append]
  rw [List.nil_append]
  apply flatMap_congr
  intro x _
  simp [refineBlock]

/-- `point_at` is affine interpolation between the endpoints. -/
theorem pointAt_eq_lerp (a b : V3) (t : ℝ) :
    pointAt a b t = V3.smul (1 - t) a + V3.smul t b := by
  cases a; cases b
  simp only [pointAt, V3.smul, V3.add_def, V3.sub_def, V3.mk.injEq]
  refine ⟨by ring, by ring, by ring⟩

/-- **C9.** For every polyline with at least two vertices and positive
`minimum_segment_length`, `refine` expands each consecutive segment of
length `L` into its start, `floor(L / minimum_segment_length) - 1`
equally-spaced linearly-interpolated interior points (none when the floor
is at most 1), and its end — i.e. it equals the spec-side description
`refineSpec` — and both original endpoints of every segment are retained
in the output. -/
theorem refine_matches_spec (verts : List V3) (msl : ℝ)
    (h2 : 2 ≤ verts.length) (hmsl : 0 < msl) :
    refine verts msl = refineSpec verts msl ∧
      ∀ index, index < verts.length - 1 →
        verts.getD index 0 ∈ refine verts msl ∧
          verts.getD (index + 1) 0 ∈ refine verts msl := by
  constructor
  · rw [refine_eq_blocks]
    unfold refineSpec
    apply flatMap_congr
    intro x _
    simp only [refineBlock]
    congr 1
    congr 1
    apply List.map_congr_left
    intro k _
    exact pointAt_eq_lerp _ _ _
  · intro index hidx
    rw [refine_eq_blocks]
    constructor
    · exact List.mem_flatMap.mpr
        ⟨index, List.mem_range.mpr hidx, by simp [refineBlock]⟩
    · exact List.mem_flatMap.mpr
        ⟨index, List.mem_range.mpr hidx, by simp [refineBlock]⟩

/-- Witness for C9 on the two-vertex polyline `[0, (1,0,0)]` with
`minimum_segment_length = 1`. -/
theorem refine_matches_spec_witness :
    2 ≤ ([(0 : V3), ⟨1, 0, 0⟩] : List V3).length ∧ (0 : ℝ) < 1 ∧
      (refine [(0 : V3), ⟨1, 0, 0⟩] 1 = refineSpec [(0 : V3), ⟨1, 0, 0⟩] 1 ∧
        ∀ index, index < ([(0 : V3), ⟨1, 0, 0⟩] : List V3).length - 1 →
          ([(0 : V3), ⟨1, 0, 0⟩] : List V3).getD index 0 ∈
              refine [(0 : V3), ⟨1, 0, 0⟩] 1 ∧
            ([(0 : V3), ⟨1, 0, 0⟩] : List V3).getD (index + 1) 0 ∈
              refine [(0 : V3), ⟨1, 0, 0⟩] 1) :=
  ⟨by simp, by norm_num,
    refine_matches_spec [(0 : V3), ⟨1, 0, 0⟩] 1 (by simp) (by norm_num)⟩

theorem range_split (a b : Nat) (h : a ≤ b) :
    List.range b = List.range a ++ List.range' a (b - a) := by
  rw [List.range_eq_range', List.range_eq_range']
  have h2 : List.range' 0 a ++ List.range' a (b - a) = List.range' 0 b := by
    have h3 := List.range'_append 0 a (b - a) 1
    simp only [Nat.zero_add, Nat.one_mul] at h3
    rw [h3]
    congr 1
    omega
  exact h2.symm

/-- **C10.** For every polyline with at least three vertices and positive
`minimum_segment_length`, the refined polyline starts with the input's
first vertex, ends with its last vertex, and contains every interior
vertex twice in adjacent positions (once as the pushed end of the
preceding segment and once as the pushed start of the following one), so
it has a zero-length segment at every original interior vertex. -/
theorem refine_doubles_interior (verts : List V3) (msl : ℝ)
    (h3 : 3 ≤ verts.length) (hmsl : 0 < msl) :
    (refine verts msl).head? = some (verts.getD 0 0) ∧
      (refine verts msl).getLast? = some (verts.getD (verts.length - 1) 0) ∧
      ∀ t, 1 ≤ t → t ≤ verts.length - 2 →
        ∃ pre post,
          refine verts msl = pre ++ verts.getD t 0 :: verts.getD t 0 :: post := by
  refine ⟨?_, ?_, ?_⟩
  · rw [refine_eq_blocks]
    obtain ⟨k, hk⟩ : ∃ k, verts.length - 1 = k + 1 := ⟨verts.length - 2, by omega⟩
    rw [hk, List.range_succ_eq_map, List.flatMap_cons]
    simp [refineBlock]
  · rw [refine_eq_blocks]
    obtain ⟨k, hk⟩ : ∃ k, verts.length - 1 = k + 1 := ⟨verts.length - 2, by omega⟩
    rw [hk, List.range_succ, List.flatMap_append, List.flatMap_cons,
      List.flatMap_nil, List.append_nil]
    rw [List.getLast?_append]
    have hblock : (refineBlock verts msl k).getLast? =
        some (verts.getD (k + 1) 0) := by
      have : refineBlock verts msl k =
          (verts.getD k 0 ::
            (List.range' 1 (⌊(verts.getD (k + 1) 0 - verts.getD k 0).magnitude / msl⌋₊ - 1)).map
              (fun division =>
                pointAt (verts.getD k 0) (verts.getD (k + 1) 0)
                  ((division : ℝ) /
                    ((⌊(verts.getD (k + 1) 0 - verts.getD k 0).magnitude / msl⌋₊ : ℕ) : ℝ)))) ++
          [verts.getD (k + 1) 0] := by
        simp [refineBlock]
      rw [this, List.getLast?_concat]
    rw [hblock]
    have : k + 1 = verts.length - 1 := hk.symm
    rw [this]
    rfl
  · intro t ht1 ht2
    obtain ⟨t1, rfl⟩ : ∃ t1, t = t1 + 1 := ⟨t - 1, by omega⟩
    rw [refine_eq_blocks]
    have hsplit : List.range (verts.length - 1) =
        (List.range t1 ++ [t1]) ++ [t1 + 1] ++
          List.range' (t1 + 2) (verts.length - 1 - (t1 + 2)) := by
      rw [range_split (t1 + 2) (verts.length - 1) (by omega)]
      congr 1
      rw [← List.range_succ, ← List.range_succ]
    rw [hsplit]
    simp only [List.flatMap_append, List.flatMap_cons, List.flatMap_nil,
      List.append_nil]
    refine ⟨(List.range t1).flatMap (refineBlock verts msl) ++
        (verts.getD t1 0 ::
          (List.range' 1 (⌊(verts.getD (t1 + 1) 0 - verts.getD t1 0).magnitude / msl⌋₊ - 1)).map
            (fun division =>
              pointAt (verts.getD t1 0) (verts.getD (t1 + 1) 0)
                ((division : ℝ) /
                  ((⌊(verts.getD (t1 + 1) 0 - verts.getD t1 0).magnitude / msl⌋₊ : ℕ) : ℝ)))),
      ((List.range' 1
            (⌊(verts.getD (t1 + 2) 0 - verts.getD (t1 + 1) 0).magnitude / msl⌋₊ - 1)).map
          (fun division =>
            pointAt (verts.getD (t1 + 1) 0) (verts.getD (t1 + 2) 0)
              ((division : ℝ) /
                ((⌊(verts.getD (t1 + 2) 0 - verts.getD (t1 + 1) 0).magnitude / msl⌋₊ : ℕ) : ℝ))) ++
          [verts.getD (t1 + 2) 0]) ++
        (List.range' (t1 + 2) (verts.length - 1 - (t1 + 2))).flatMap
          (refineBlock verts msl), ?_⟩
    simp [refineBlock, List.append_assoc]

/-- Witness for C10 on the three-vertex polyline `[0, (1,0,0), (2,0,0)]`
with `minimum_segment_length = 1`. -/
theorem refine_doubles_interior_witness :
    3 ≤ ([(0 : V3), ⟨1, 0, 0⟩, ⟨2, 0, 0⟩] : List V3).length ∧ (0 : ℝ) < 1 ∧
      ((refine [(0 : V3), ⟨1, 0, 0⟩, ⟨2, 0, 0⟩] 1).head? =
          some (([(0 : V3), ⟨1, 0, 0⟩, ⟨2, 0, 0⟩] : List V3).getD 0 0) ∧
        (refine [(0 : V3), ⟨1, 0, 0⟩, ⟨2, 0, 0⟩] 1).getLast? =
          some (([(0 : V3), ⟨1, 0, 0⟩, ⟨2, 0, 0⟩] : List V3).getD
            (([(0 : V3), ⟨1, 0, 0⟩, ⟨2, 0, 0⟩] : List V3).length - 1) 0) ∧
        ∀ t, 1 ≤ t → t ≤ ([(0 : V3), ⟨1, 0, 0⟩, ⟨2, 0, 0⟩] : List V3).length - 2 →
          ∃ pre post,
            refine [(0 : V3), ⟨1, 0, 0⟩, ⟨2, 0, 0⟩] 1 =
              pre ++ ([(0 : V3), ⟨1, 0, 0⟩, ⟨2, 0, 0⟩] : List V3).getD t 0 ::
                ([(0 : V3), ⟨1, 0, 0⟩, ⟨2, 0, 0⟩] : List V3).getD t 0 :: post) :=
  ⟨by simp, by norm_num,
    refine_doubles_interior [(0 : V3), ⟨1, 0, 0⟩, ⟨2, 0, 0⟩] 1 (by simp) (by norm_num)⟩

/-! ## Commutation (C5) -/

theorem getD_set {α : Type} (l : List α) (k idx : Nat) (a dflt : α) :
    (l.set k a).getD idx dflt =
      if k = idx ∧ k < l.length then a else l.getD idx dflt := by
  rw [List.getD_eq_getElem?_getD, List.getD_eq_getElem?_getD, List.getElem?_set]
  by_cases h1 : k = idx
  · subst h1
    by_cases h2 : k < l.length
    · simp [h2]
    · have : l[k]? = none := List.getElem?_eq_none (by omega)
      simp [h2, this]
  · simp [h1]

theorem count_le_of_getElem (l : List Char) (i : Nat) (hi : i < l.length) (c : Char)
    (h : l[i] = c) : 1 ≤ l.count c :=
  List.count_pos_iff.mpr (h ▸ List.getElem_mem hi)

/-- Swapping two entries of a list leaves every count unchanged. -/
theorem count_swapSet (l : List Char) (i j : Nat) (hi : i < l.length)
    (hj : j < l.length) (hij : i ≠ j) (c : Char) :
    ((l.set i (l.getD j ' ')).set j (l.getD i ' ')).count c = l.count c := by
  have hgdi : l.getD i ' ' = l[i] := List.getD_eq_getElem l ' ' hi
  have hgdj : l.getD j ' ' = l[j] := List.getD_eq_getElem l ' ' hj
  rw [hgdi, hgdj]
  have hlen : j < (l.set i l[j]).length := by
    rw [List.length_set]; exact hj
  have h2 := List.count_set (l[i]) c (l.set i l[j]) j hlen
  have hgj : (l.set i l[j])[j] = l[j] := by
    rw [List.getElem_set]
    simp [hij]
  rw [hgj] at h2
  have h1 := List.count_set (l[j]) c l i hi
  rw [h2, h1]
  have hci : (if (l[i] == c) = true then 1 else 0) ≤ l.count c := by
    split_ifs with h
    · exact count_le_of_getElem l i hi c (by simpa using h)
    · omega
  have hcj : (if (l[j] == c) = true then 1 else 0) ≤ l.count c := by
    split_ifs with h
    · exact count_le_of_getElem l j hj c (by simpa using h)
    · omega
  split_ifs at hci hcj ⊢ <;> omega

/-- Unpacking `validate`. -/
theorem validate_iff (d : Diagram) :
    validate d = true ↔ ∀ k < d.resolution,
      (getRow d k).count 'x' = 1 ∧ (getRow d k).count 'o' = 1 ∧
        (getColumn d k).count 'x' = 1 ∧ (getColumn d k).count 'o' = 1 := by
  unfold validate
  rw [List.all_eq_true]
  constructor
  · intro h k hk
    have h2 := h k (List.mem_range.mpr hk)
    simp only [Bool.and_eq_true, beq_iff_eq] at h2
    tauto
  · intro h x hx
    have h2 := h x (List.mem_range.mp hx)
    simp only [Bool.and_eq_true, beq_iff_eq]
    tauto

/-- The `are_interleaved` test decides exactly the spec's interleaving
condition. -/
theorem areInterleaved_iff (a b : List Char) :
    areInterleaved a b = true ↔ interleavedSpec a b := by
  unfold areInterleaved interleavedSpec
  dsimp only
  generalize (markPositions a).getD 0 0 = aS
  generalize (markPositions a).getD 1 0 = aE
  generalize (markPositions b).getD 0 0 = bS
  generalize (markPositions b).getD 1 0 = bE
  split_ifs with h1 h2 h3 h4 h5 h6 <;> simp <;> omega

theorem getColumn_exchangeRows (d : Diagram) (i k : Nat) :
    getColumn (exchangeRows d i (i + 1)) k =
      ((getColumn d k).set i ((getColumn d k).getD (i + 1) ' ')).set (i + 1)
        ((getColumn d k).getD i ' ') := by
  unfold getColumn exchangeRows
  rw [List.map_set, List.map_set]
  have hA : (d.data.getD i []).getD k ' ' =
      (d.data.map (fun row => row.getD k ' ')).getD i ' ' :=
    (List.getD_map d.data [] (fun row => row.getD k ' ')).symm
  have hB : (d.data.getD (i + 1) []).getD k ' ' =
      (d.data.map (fun row => row.getD k ' ')).getD (i + 1) ' ' :=
    (List.getD_map d.data [] (fun row => row.getD k ' ')).symm
  rw [hA, hB]

/-- **C5.** For every valid diagram and commutation with
`start_index < n - 1`: when the two adjacent lines' mark intervals are
interleaved in the spec's sense, `apply_move` fails with
`InterleavedLines` and leaves the diagram unchanged; otherwise it
succeeds, swaps exactly those two lines, keeps the resolution, and the
result still satisfies the one-`'x'`-one-`'o'`-per-line invariant. -/
theorem commutation_correct (d : Diagram) (hv : validate d = true)
    (hw : wellFormed d) (axis : Axis) (startIndex : Nat)
    (hs : startIndex + 1 < d.resolution) :
    (interleavedSpec (lineOf d axis startIndex) (lineOf d axis (startIndex + 1)) →
        applyMove d (.commutation axis startIndex) = (some .interleavedLines, d)) ∧
      (¬ interleavedSpec (lineOf d axis startIndex) (lineOf d axis (startIndex + 1)) →
        applyMove d (.commutation axis startIndex) =
            (none, commuted d axis startIndex) ∧
          (commuted d axis startIndex).resolution = d.resolution ∧
          validate (commuted d axis startIndex) = true) := by
  have hne : startIndex ≠ d.resolution - 1 := by omega
  have hlen : d.data.length = d.resolution := hw.1
  have hrowlen : ∀ k, k < d.resolution → (d.data.getD k []).length = d.resolution := by
    intro k hk
    have hmem : d.data.getD k [] ∈ d.data := by
      rw [List.getD_eq_getElem d.data [] (by omega)]
      exact List.getElem_mem _
    exact (hw.2 _ hmem).1
  constructor
  · intro hI
    have hA : areInterleaved (lineOf d axis startIndex) (lineOf d axis (startIndex + 1)) = true :=
      (areInterleaved_iff _ _).mpr hI
    simp [applyMove, hne, hA]
  · intro hI
    have hA : areInterleaved (lineOf d axis startIndex) (lineOf d axis (startIndex + 1)) = false := by
      rw [← Bool.not_eq_true, areInterleaved_iff]
      exact hI
    refine ⟨by simp [applyMove, hne, hA], ?_, ?_⟩
    · cases axis <;> rfl
    · rw [validate_iff]
      have hcounts := (validate_iff d).mp hv
      cases axis with
      | row =>
        intro k hk
        have hkres : k < d.resolution := hk
        have hrowsEq : getRow (commuted d .row startIndex) k =
            if startIndex + 1 = k ∧ startIndex + 1 < d.data.length then d.data.getD startIndex []
            else if startIndex = k ∧ startIndex < d.data.length then d.data.getD (startIndex + 1) []
            else d.data.getD k [] := by
          show ((d.data.set startIndex (d.data.getD (startIndex + 1) [])).set (startIndex + 1)
              (d.data.getD startIndex [])).getD k [] = _
          rw [getD_set, getD_set]
          rw [List.length_set]
        have hcolsEq : ∀ c : Char, (getColumn (commuted d .row startIndex) k).count c =
            (getColumn d k).count c := by
          intro c
          show (getColumn (exchangeRows d startIndex (startIndex + 1)) k).count c = _
          rw [getColumn_exchangeRows]
          have hclen : (getColumn d k).length = d.resolution := by
            unfold getColumn; rw [List.length_map, hlen]
          exact count_swapSet _ _ _ (by omega) (by omega) (by omega) c
        refine ⟨?_, ?_, ?_, ?_⟩ <;>
          first
          | (rw [show getRow (commuted d .row startIndex) k = _ from hrowsEq]
             split_ifs with h1 h2
             · exact by
                 have := hcounts startIndex (by omega)
                 simp only [getRow] at this
                 tauto
             · exact by
                 have := hcounts (startIndex + 1) (by omega)
                 simp only [getRow] at this
                 tauto
             · exact by
                 have := hcounts k hkres
                 simp only [getRow] at this
                 tauto)
          | (rw [hcolsEq]
             have := hcounts k hkres
             tauto)
      | column =>
        intro k hk
        have hrowsEq : getRow (commuted d .column startIndex) k =
            swapEntries (d.data.getD k []) startIndex (startIndex + 1) := by
          show (d.data.map (fun row => swapEntries row startIndex (startIndex + 1))).getD k [] = _
          exact List.getD_map d.data [] (fun row => swapEntries row startIndex (startIndex + 1))
        have hrowCount : ∀ c : Char, (getRow (commuted d .column startIndex) k).count c =
            (getRow d k).count c := by
          intro c
          rw [hrowsEq]
          unfold swapEntries
          exact count_swapSet _ _ _ (by rw [hrowlen k hk]; omega)
            (by rw [hrowlen k hk]; omega) (by omega) c
        have hcolsEq : getColumn (commuted d .column startIndex) k =
            if k = startIndex then getColumn d (startIndex + 1)
            else if k = startIndex + 1 then getColumn d startIndex
            else getColumn d k := by
          show ((d.data.map (fun row => swapEntries row startIndex (startIndex + 1))).map
              (fun row => row.getD k ' ')) = _
          rw [List.map_map]
          have hpt : ∀ row ∈ d.data,
              ((fun row => row.getD k ' ') ∘ fun row => swapEntries row startIndex (startIndex + 1)) row =
                (if k = startIndex then row.getD (startIndex + 1) ' '
                 else if k = startIndex + 1 then row.getD startIndex ' '
                 else row.getD k ' ') := by
            intro row hmem
            have hrl : row.length = d.resolution := (hw.2 _ hmem).1
            show (swapEntries row startIndex (startIndex + 1)).getD k ' ' = _
            unfold swapEntries
            rw [getD_set, getD_set]
            rw [List.length_set]
            by_cases hk1 : k = startIndex
            · subst hk1
              rw [if_neg (by omega), if_pos (by omega), if_pos rfl]
            · by_cases hk2 : k = startIndex + 1
              · subst hk2
                rw [if_pos (by omega), if_neg hk1, if_pos rfl]
              · rw [if_neg (by omega), if_neg (by omega), if_neg hk1, if_neg hk2]
          rw [List.map_congr_left hpt]
          split_ifs with h1 h2 <;> rfl
        refine ⟨?_, ?_, ?_, ?_⟩ <;>
          first
          | (rw [hrowCount]
             have := hcounts k hk
             tauto)
          | (rw [hcolsEq]
             split_ifs with h1 h2
             · have := hcounts (startIndex + 1) (by omega); tauto
             · have := hcounts startIndex (by omega); tauto
             · have := hcounts k hk; tauto)

/-- Witness for C5 on the trefoil diagram, rows 0 and 1. -/
theorem commutation_correct_witness :
    validate trefoilDiagram = true ∧ wellFormed trefoilDiagram ∧
      0 + 1 < trefoilDiagram.resolution ∧
      ((interleavedSpec (lineOf trefoilDiagram .row 0) (lineOf trefoilDiagram .row 1) →
          applyMove trefoilDiagram (.commutation .row 0) =
            (some .interleavedLines, trefoilDiagram)) ∧
        (¬ interleavedSpec (lineOf trefoilDiagram .row 0) (lineOf trefoilDiagram .row 1) →
          applyMove trefoilDiagram (.commutation .row 0) =
              (none, commuted trefoilDiagram .row 0) ∧
            (commuted trefoilDiagram .row 0).resolution = trefoilDiagram.resolution ∧
            validate (commuted trefoilDiagram .row 0) = true)) :=
  ⟨by decide, by decide, by decide,
    commutation_correct trefoilDiagram (by decide) (by decide) .row 0 (by decide)⟩

/-! ## Stabilization (C6) -/

theorem count_insertIdx (l : List Char) (k : Nat) (a : Char) (hk : k ≤ l.length)
    (c : Char) :
    (l.insertIdx k a).count c = l.count c + (if (a == c) = true then 1 else 0) := by
  have hp := List.perm_insertIdx a l hk
  rw [hp.count_eq, List.count_cons]

theorem getD_map_of_lt {α β : Type} (f : α → β) (l : List α) (idx : Nat)
    (h : idx < l.length) (d1 : β) (d2 : α) :
    (l.map f).getD idx d1 = f (l.getD idx d2) := by
  rw [List.getD_eq_getElem _ _ (by simpa using h), List.getD_eq_getElem _ _ h,
    List.getElem_map]

theorem map_insertIdx {α β : Type} (f : α → β) (l : List α) (k : Nat) (a : α)
    (hk : k ≤ l.length) :
    (l.insertIdx k a).map f = (l.map f).insertIdx k (f a) := by
  rw [insertIdx_eq_take_cons_drop k l a hk,
    insertIdx_eq_take_cons_drop k (l.map f) (f a) (by simpa using hk)]
  simp [List.map_take, List.map_drop]

theorem getD_insertIdx {α : Type} (l : List α) (k : Nat) (a dflt : α)
    (hk : k ≤ l.length) (idx : Nat) :
    (l.insertIdx k a).getD idx dflt =
      if idx < k then l.getD idx dflt
      else if idx = k then a
      else l.getD (idx - 1) dflt := by
  rw [insertIdx_eq_take_cons_drop k l a hk]
  have hlen : (l.take k).length = k := by simp [List.length_take]; omega
  by_cases h1 : idx < k
  · rw [if_pos h1, List.getD_append _ _ _ _ (by omega)]
    rw [List.getD_eq_getElem?_getD, List.getD_eq_getElem?_getD, List.getElem?_take,
      if_pos h1]
  · rw [if_neg h1, List.getD_append_right _ _ _ _ (by omega)]
    by_cases h2 : idx = k
    · subst h2
      rw [if_pos rfl, hlen, Nat.sub_self]
      rfl
    · rw [if_neg h2]
      have h3 : idx - (l.take k).length = (idx - k - 1) + 1 := by rw [hlen]; omega
      rw [h3, List.getD_cons_succ]
      rw [List.getD_eq_getElem?_getD, List.getD_eq_getElem?_getD, List.getElem?_drop]
      have h4 : k + (idx - k - 1) = idx - 1 := by omega
      rw [h4]

theorem getD_replicate_blank (res m : Nat) :
    (List.replicate res ' ').getD m ' ' = ' ' := by
  rw [List.getD_eq_getElem?_getD, List.getElem?_replicate]
  by_cases h : m < res <;> simp [h]

theorem getD_stabExtraRow (res j k : Nat) (hj1 : j + 1 < res) (eJ eJ1 : Char) :
    (stabExtraRow res j eJ eJ1).getD k ' ' =
      if k = j + 1 then eJ1 else if k = j then eJ else ' ' := by
  unfold stabExtraRow
  rw [getD_set, getD_set]
  simp only [List.length_set, List.length_replicate]
  by_cases hk1 : k = j + 1
  · rw [if_pos ⟨hk1.symm, by omega⟩, if_pos hk1]
  · rw [if_neg (by omega), if_neg hk1]
    by_cases hk2 : k = j
    · rw [if_pos ⟨hk2.symm, by omega⟩, if_pos hk2]
    · rw [if_neg (by omega), if_neg hk2, getD_replicate_blank]

theorem count_stabExtraRow (res j : Nat) (hj1 : j + 1 < res) (eJ eJ1 c : Char)
    (hc : (' ' == c) = false) :
    (stabExtraRow res j eJ eJ1).count c =
      (if (eJ == c) = true then 1 else 0) + (if (eJ1 == c) = true then 1 else 0) := by
  unfold stabExtraRow
  have h0 : (List.replicate res ' ').count c = 0 := by
    rw [List.count_replicate, hc]
    rfl
  have hjlen : j < (List.replicate res ' ').length := by simp; omega
  have h1 := List.count_set eJ c (List.replicate res ' ') j hjlen
  have hv1 : (List.replicate res ' ')[j] = ' ' := List.getElem_replicate ..
  rw [hv1, h0, hc] at h1
  have hj1len : j + 1 < ((List.replicate res ' ').set j eJ).length := by simp; omega
  have h2 := List.count_set eJ1 c ((List.replicate res ' ').set j eJ) (j + 1) hj1len
  have hv2 : ((List.replicate res ' ').set j eJ)[j + 1] = ' ' := by
    rw [List.getElem_set]
    simp only [if_neg (by omega : ¬ j = j + 1)]
    exact List.getElem_replicate ..
  rw [hv2, h1, hc] at h2
  rw [h2]
  simp only [Bool.false_eq_true, if_false]
  split_ifs <;> omega

theorem count_set_getD (l : List Char) (k : Nat) (a : Char) (hk : k < l.length)
    (c : Char) :
    (l.set k a).count c =
      l.count c - (if (l.getD k ' ' == c) = true then 1 else 0) +
        (if (a == c) = true then 1 else 0) := by
  have h := List.count_set a c l k hk
  rw [List.getD_eq_getElem l ' ' hk]
  exact h

/-- The invariant-preservation core shared by the four stabilization
cardinalities: the parameters describe which column is inserted (`cp`,
either `j` or `j+1`), which row is inserted (`ir`, either `i` or `i+1`),
and the four cell values the branch writes. -/
theorem stab_core (d : Diagram) (hv : validate d = true) (hw : wellFormed d)
    (i j cp ir : Nat) (vJ vJ1 eJ eJ1 : Char)
    (hi : i < d.resolution) (hj : j < d.resolution)
    (hx : getCell d i j = 'x')
    (hir : ir = i ∨ ir = i + 1)
    (hvals : (cp = j + 1 ∧ vJ = ' ' ∧ vJ1 = 'x' ∧ eJ = 'x' ∧ eJ1 = 'o') ∨
      (cp = j ∧ vJ = 'x' ∧ vJ1 = ' ' ∧ eJ = 'o' ∧ eJ1 = 'x')) :
    validate
      ⟨d.resolution + 1,
        ((d.data.map fun row => row.insertIdx cp ' ').set i
            ((((d.data.map fun row => row.insertIdx cp ' ').getD i []).set j vJ).set
              (j + 1) vJ1)).insertIdx ir
          (stabExtraRow (d.resolution + 1) j eJ eJ1)⟩ = true := by
  have hlen : d.data.length = d.resolution := hw.1
  have hrowlen : ∀ k, k < d.resolution → (d.data.getD k []).length = d.resolution := by
    intro k hk
    have hmem : d.data.getD k [] ∈ d.data := by
      rw [List.getD_eq_getElem d.data [] (by omega)]
      exact List.getElem_mem _
    exact (hw.2 _ hmem).1
  have hcounts := (validate_iff d).mp hv
  have hcp : cp ≤ j + 1 := by rcases hvals with ⟨h, _⟩ | ⟨h, _⟩ <;> omega
  have hcpj : j ≤ cp := by rcases hvals with ⟨h, _⟩ | ⟨h, _⟩ <;> omega
  have hcpn : cp ≤ d.resolution := by omega
  have hirn : ir ≤ d.resolution := by rcases hir with h | h <;> omega
  have hrowil : (d.data.getD i []).length = d.resolution := hrowlen i hi
  have hxval : (d.data.getD i []).getD j ' ' = 'x' := hx
  have hrows1len : (d.data.map fun row => row.insertIdx cp ' ').length = d.resolution := by
    rw [List.length_map]; exact hlen
  have hrow1i : (d.data.map fun row => row.insertIdx cp ' ').getD i [] =
      (d.data.getD i []).insertIdx cp ' ' :=
    getD_map_of_lt _ d.data i (by omega) [] []
  have hr1len : ((d.data.getD i []).insertIdx cp ' ').length = d.resolution + 1 := by
    rw [List.length_insertIdx cp _ (by omega), hrowil]
  -- the x / o counts of each row of the pre-insertion grid `rows2`
  have hrow2counts : ∀ idx, idx < d.resolution → ∀ c, c = 'x' ∨ c = 'o' →
      (((d.data.map fun row => row.insertIdx cp ' ').set i
          ((((d.data.map fun row => row.insertIdx cp ' ').getD i []).set j vJ).set
            (j + 1) vJ1)).getD idx []).count c = 1 := by
    intro idx hidx c hc
    have hblank : (' ' == c) = false := by rcases hc with rfl | rfl <;> rfl
    by_cases hii : idx = i
    · subst hii
      rw [getD_set, if_pos ⟨rfl, by omega⟩, hrow1i]
      have hb1 : j < ((d.data.getD idx []).insertIdx cp ' ').length := by
        rw [hr1len]; omega
      have hb2 : j + 1 < (((d.data.getD idx []).insertIdx cp ' ').set j vJ).length := by
        rw [List.length_set, hr1len]; omega
      have hbase : ((d.data.getD idx []).insertIdx cp ' ').count c =
          (d.data.getD idx []).count c := by
        rw [count_insertIdx _ _ _ (by omega), hblank]
        rfl
      have hcount_idx : (d.data.getD idx []).count c = 1 := by
        rcases hc with rfl | rfl
        · exact (hcounts idx hidx).1
        · exact (hcounts idx hidx).2.1
      rw [count_set_getD _ _ _ hb2, count_set_getD _ _ _ hb1, hbase, hcount_idx]
      have hvalj1 : (((d.data.getD idx []).insertIdx cp ' ').set j vJ).getD (j + 1) ' ' =
          ((d.data.getD idx []).insertIdx cp ' ').getD (j + 1) ' ' := by
        rw [getD_set, if_neg (by omega)]
      rw [hvalj1]
      rcases hvals with ⟨hcpv, hvJ, hvJ1, _, _⟩ | ⟨hcpv, hvJ, hvJ1, _, _⟩
      · subst hvJ; subst hvJ1
        have hvj : ((d.data.getD idx []).insertIdx cp ' ').getD j ' ' = 'x' := by
          rw [getD_insertIdx _ _ _ _ (by omega), if_pos (by omega)]
          exact hxval
        have hvj1 : ((d.data.getD idx []).insertIdx cp ' ').getD (j + 1) ' ' = ' ' := by
          rw [getD_insertIdx _ _ _ _ (by omega), if_neg (by omega), if_pos (by omega)]
        rw [hvj, hvj1, hblank]
        rcases hc with rfl | rfl <;> simp <;> omega
      · subst hvJ; subst hvJ1
        have hvj : ((d.data.getD idx []).insertIdx cp ' ').getD j ' ' = ' ' := by
          rw [getD_insertIdx _ _ _ _ (by omega), if_neg (by omega), if_pos (by omega)]
        have hvj1 : ((d.data.getD idx []).insertIdx cp ' ').getD (j + 1) ' ' = 'x' := by
          rw [getD_insertIdx _ _ _ _ (by omega), if_neg (by omega), if_neg (by omega)]
          simpa [hcpv] using hxval
        rw [hvj, hvj1, hblank]
        rcases hc with rfl | rfl <;> simp <;> omega
    · rw [getD_set, if_neg (by omega)]
      rw [getD_map_of_lt _ d.data idx (by omega) [] []]
      have hcount_idx : (d.data.getD idx []).count c = 1 := by
        rcases hc with rfl | rfl
        · exact (hcounts idx hidx).1
        · exact (hcounts idx hidx).2.1
      rw [count_insertIdx _ _ _ (by rw [hrowlen idx hidx]; omega), hblank, hcount_idx]
      simp
  -- the x / o counts of each column of the pre-insertion grid `rows2`
  have hcol2counts : ∀ k, k < d.resolution + 1 → ∀ c, c = 'x' ∨ c = 'o' →
      (((d.data.map fun row => row.insertIdx cp ' ').set i
            ((((d.data.map fun row => row.insertIdx cp ' ').getD i []).set j vJ).set
              (j + 1) vJ1)).map fun r => r.getD k ' ').count c +
        (if ((stabExtraRow (d.resolution + 1) j eJ eJ1).getD k ' ' == c) = true
          then 1 else 0) = 1 := by
    intro k hk c hc
    have hblank : (' ' == c) = false := by rcases hc with rfl | rfl <;> rfl
    rw [List.map_set]
    have hmapi : i < ((d.data.map fun row => row.insertIdx cp ' ').map
        fun r => r.getD k ' ').length := by
      rw [List.length_map, hrows1len]; omega
    rw [count_set_getD _ _ _ hmapi]
    rw [List.map_map]
    have hgetmapi : (d.data.map
          ((fun r => r.getD k ' ') ∘ fun row => row.insertIdx cp ' ')).getD i ' ' =
        ((d.data.getD i []).insertIdx cp ' ').getD k ' ' :=
      getD_map_of_lt _ d.data i (by omega) ' ' []
    rw [hgetmapi]
    -- the base column count, before the row-i overwrite
    have hbase_lt : k < cp →
        (d.data.map ((fun r => r.getD k ' ') ∘ fun row => row.insertIdx cp ' ')).count c =
          (getColumn d k).count c := by
      intro hklt
      unfold getColumn
      congr 1
      apply List.map_congr_left
      intro row hmem
      have hrl : row.length = d.resolution := (hw.2 _ hmem).1
      show (row.insertIdx cp ' ').getD k ' ' = row.getD k ' '
      rw [getD_insertIdx _ _ _ _ (by omega), if_pos hklt]
    have hbase_eq : k = cp →
        (d.data.map ((fun r => r.getD k ' ') ∘ fun row => row.insertIdx cp ' ')).count c = 0 := by
      intro hkeq
      have : (d.data.map ((fun r => r.getD k ' ') ∘ fun row => row.insertIdx cp ' ')) =
          List.replicate d.data.length ' ' := by
        rw [← List.map_const' d.data ' ']
        apply List.map_congr_left
        intro row hmem
        have hrl : row.length = d.resolution := (hw.2 _ hmem).1
        show (row.insertIdx cp ' ').getD k ' ' = ' '
        rw [getD_insertIdx _ _ _ _ (by omega), if_neg (by omega), if_pos hkeq]
      rw [this, List.count_replicate, hblank]
      rfl
    have hbase_gt : cp < k →
        (d.data.map ((fun r => r.getD k ' ') ∘ fun row => row.insertIdx cp ' ')).count c =
          (getColumn d (k - 1)).count c := by
      intro hkgt
      unfold getColumn
      congr 1
      apply List.map_congr_left
      intro row hmem
      have hrl : row.length = d.resolution := (hw.2 _ hmem).1
      show (row.insertIdx cp ' ').getD k ' ' = row.getD (k - 1) ' '
      rw [getD_insertIdx _ _ _ _ (by omega), if_neg (by omega), if_neg (by omega)]
    have hcolcount : ∀ m, m < d.resolution → (getColumn d m).count c = 1 := by
      intro m hm
      rcases hc with rfl | rfl
      · exact (hcounts m hm).2.2.1
      · exact (hcounts m hm).2.2.2
    -- the value the row-i overwrite puts into column k
    have hmrowval : ((((d.data.map fun row => row.insertIdx cp ' ').getD i []).set j vJ).set
        (j + 1) vJ1).getD k ' ' =
          if k = j + 1 then vJ1
          else if k = j then vJ
          else ((d.data.getD i []).insertIdx cp ' ').getD k ' ' := by
      rw [hrow1i, getD_set, getD_set, List.length_set]
      by_cases hk1 : k = j + 1
      · rw [if_pos ⟨hk1.symm, by omega⟩, if_pos hk1]
      · rw [if_neg (by omega)]
        by_cases hk2 : k = j
        · rw [if_pos ⟨hk2.symm, by omega⟩, if_neg hk1, if_pos hk2]
        · rw [if_neg (by omega), if_neg hk1, if_neg hk2]
    rw [hmrowval, getD_stabExtraRow _ _ _ (by omega)]
    by_cases hk1 : k = j + 1
    · rw [if_pos hk1, if_pos hk1]
      rcases hvals with ⟨hcpv, hvJ, hvJ1, heJ, heJ1⟩ | ⟨hcpv, hvJ, hvJ1, heJ, heJ1⟩
      · subst hvJ1; subst heJ1
        rw [hbase_eq (by omega)]
        have hins : ((d.data.getD i []).insertIdx cp ' ').getD k ' ' = ' ' := by
          rw [getD_insertIdx _ _ _ _ (by omega), if_neg (by omega), if_pos (by omega)]
        rw [hins, hblank]
        rcases hc with rfl | rfl <;> simp
      · subst hvJ1; subst heJ1
        rw [hbase_gt (by omega)]
        have hins : ((d.data.getD i []).insertIdx cp ' ').getD k ' ' = 'x' := by
          rw [getD_insertIdx _ _ _ _ (by omega), if_neg (by omega), if_neg (by omega)]
          have hkj : k - 1 = j := by omega
          rw [hkj]
          exact hxval
        rw [hins]
        rw [hcolcount (k - 1) (by omega)]
        rcases hc with rfl | rfl <;> simp
    · by_cases hk2 : k = j
      · rw [if_neg hk1, if_pos hk2, if_neg hk1, if_pos hk2]
        rcases hvals with ⟨hcpv, hvJ, hvJ1, heJ, heJ1⟩ | ⟨hcpv, hvJ, hvJ1, heJ, heJ1⟩
        · subst hvJ; subst heJ
          rw [hbase_lt (by omega), hcolcount k (by omega)]
          have hins : ((d.data.getD i []).insertIdx cp ' ').getD k ' ' = 'x' := by
            rw [getD_insertIdx _ _ _ _ (by omega), if_pos (by omega), hk2]
            exact hxval
          rw [hins, hblank]
          rcases hc with rfl | rfl <;> simp
        · subst hvJ; subst heJ
          rw [hbase_eq (by omega)]
          have hins : ((d.data.getD i []).insertIdx cp ' ').getD k ' ' = ' ' := by
            rw [getD_insertIdx _ _ _ _ (by omega), if_neg (by omega), if_pos (by omega)]
          rw [hins, hblank]
          rcases hc with rfl | rfl <;> simp
      · -- a column away from the insertion block
        rw [if_neg hk1, if_neg hk2, if_neg hk1, if_neg hk2, hblank]
        simp only [Bool.false_eq_true, if_false]
        have hsame : ((d.data.getD i []).insertIdx cp ' ').getD k ' ' =
            (d.data.getD i []).getD (if k < cp then k else k - 1) ' ' := by
          rw [getD_insertIdx _ _ _ _ (by omega)]
          by_cases hklt : k < cp
          · rw [if_pos hklt, if_pos hklt]
          · rw [if_neg hklt, if_neg (by omega), if_neg hklt]
        by_cases hklt : k < cp
        · rw [hbase_lt hklt, hcolcount k (by omega)]
          rw [hsame, if_pos hklt]
          split_ifs <;> omega
        · have hkgt : cp < k := by omega
          rw [hbase_gt hkgt, hcolcount (k - 1) (by omega)]
          rw [hsame, if_neg hklt]
          split_ifs <;> omega
  -- assemble
  rw [validate_iff]
  intro k hk
  have hk1 : k < d.resolution + 1 := hk
  have hrows2len : ((d.data.map fun row => row.insertIdx cp ' ').set i
      ((((d.data.map fun row => row.insertIdx cp ' ').getD i []).set j vJ).set
        (j + 1) vJ1)).length = d.resolution := by
    rw [List.length_set, hrows1len]
  have hrowgoal : ∀ c, c = 'x' ∨ c = 'o' →
      (getRow
        ⟨d.resolution + 1,
          ((d.data.map fun row => row.insertIdx cp ' ').set i
              ((((d.data.map fun row => row.insertIdx cp ' ').getD i []).set j vJ).set
                (j + 1) vJ1)).insertIdx ir
            (stabExtraRow (d.resolution + 1) j eJ eJ1)⟩ k).count c = 1 := by
    intro c hc
    show ((((d.data.map fun row => row.insertIdx cp ' ').set i
        ((((d.data.map fun row => row.insertIdx cp ' ').getD i []).set j vJ).set
          (j + 1) vJ1)).insertIdx ir
        (stabExtraRow (d.resolution + 1) j eJ eJ1)).getD k []).count c = 1
    rw [getD_insertIdx _ _ _ _ (by rw [hrows2len]; exact hirn)]
    by_cases hklt : k < ir
    · rw [if_pos hklt]
      exact hrow2counts k (by omega) c hc
    · rw [if_neg hklt]
      by_cases hkeq : k = ir
      · subst hkeq
        rw [if_pos rfl]
        have hblank : (' ' == c) = false := by rcases hc with rfl | rfl <;> rfl
        rw [count_stabExtraRow _ _ (by omega) _ _ _ hblank]
        rcases hvals with ⟨_, _, _, heJ, heJ1⟩ | ⟨_, _, _, heJ, heJ1⟩ <;>
          subst heJ <;> subst heJ1 <;> rcases hc with rfl | rfl <;> simp
      · rw [if_neg hkeq]
        exact hrow2counts (k - 1) (by omega) c hc
  have hcolgoal : ∀ c, c = 'x' ∨ c = 'o' →
      (getColumn
        ⟨d.resolution + 1,
          ((d.data.map fun row => row.insertIdx cp ' ').set i
              ((((d.data.map fun row => row.insertIdx cp ' ').getD i []).set j vJ).set
                (j + 1) vJ1)).insertIdx ir
            (stabExtraRow (d.resolution + 1) j eJ eJ1)⟩ k).count c = 1 := by
    intro c hc
    show ((((d.data.map fun row => row.insertIdx cp ' ').set i
        ((((d.data.map fun row => row.insertIdx cp ' ').getD i []).set j vJ).set
          (j + 1) vJ1)).insertIdx ir
        (stabExtraRow (d.resolution + 1) j eJ eJ1)).map fun r => r.getD k ' ').count c = 1
    rw [map_insertIdx _ _ _ _ (by rw [hrows2len]; exact hirn)]
    rw [count_insertIdx _ _ _ (by rw [List.length_map, hrows2len]; exact hirn)]
    exact hcol2counts k hk1 c hc
  exact ⟨hrowgoal 'x' (Or.inl rfl), hrowgoal 'o' (Or.inr rfl),
    hcolgoal 'x' (Or.inl rfl), hcolgoal 'o' (Or.inr rfl)⟩

/-- Every stabilization branch preserves the one-mark invariant. -/
theorem stabilized_validate (d : Diagram) (hv : validate d = true)
    (hw : wellFormed d) (card : Cardinality) (i j : Nat)
    (hi : i < d.resolution) (hj : j < d.resolution) (hx : getCell d i j = 'x') :
    validate (stabilized d card i j) = true := by
  cases card
  · exact stab_core d hv hw i j (j + 1) (i + 1) ' ' 'x' 'x' 'o' hi hj hx
      (Or.inr rfl) (Or.inl ⟨rfl, rfl, rfl, rfl, rfl⟩)
  · exact stab_core d hv hw i j (j + 1) i ' ' 'x' 'x' 'o' hi hj hx
      (Or.inl rfl) (Or.inl ⟨rfl, rfl, rfl, rfl, rfl⟩)
  · exact stab_core d hv hw i j j (i + 1) 'x' ' ' 'o' 'x' hi hj hx
      (Or.inr rfl) (Or.inr ⟨rfl, rfl, rfl, rfl, rfl⟩)
  · exact stab_core d hv hw i j j i 'x' ' ' 'o' 'x' hi hj hx
      (Or.inl rfl) (Or.inr ⟨rfl, rfl, rfl, rfl, rfl⟩)

/-- The preservation core shared by the four cardinalities: every cell
outside the replaced `(i, j)` keeps its marker, at the shifted position. -/
theorem stab_preserve_core (d : Diagram) (hw : wellFormed d)
    (i j cp ir : Nat) (vJ vJ1 eJ eJ1 : Char)
    (hi : i < d.resolution) (hj : j < d.resolution)
    (hir : ir = i ∨ ir = i + 1)
    (hcp : cp = j ∨ cp = j + 1)
    (iOld jOld : Nat) (hio : iOld < d.resolution) (hjo : jOld < d.resolution)
    (hnotx : ¬(iOld = i ∧ jOld = j)) :
    getCell
        ⟨d.resolution + 1,
          ((d.data.map fun row => row.insertIdx cp ' ').set i
              ((((d.data.map fun row => row.insertIdx cp ' ').getD i []).set j vJ).set
                (j + 1) vJ1)).insertIdx ir
            (stabExtraRow (d.resolution + 1) j eJ eJ1)⟩
        (if ir ≤ iOld then iOld + 1 else iOld) (if cp ≤ jOld then jOld + 1 else jOld) =
      getCell d iOld jOld := by
  have hlen : d.data.length = d.resolution := hw.1
  have hrowlen : ∀ k, k < d.resolution → (d.data.getD k []).length = d.resolution := by
    intro k hk
    have hmem : d.data.getD k [] ∈ d.data := by
      rw [List.getD_eq_getElem d.data [] (by omega)]
      exact List.getElem_mem _
    exact (hw.2 _ hmem).1
  have hirn : ir ≤ d.resolution := by rcases hir with h | h <;> omega
  have hcpn : cp ≤ d.resolution := by rcases hcp with h | h <;> omega
  have hrows1len : (d.data.map fun row => row.insertIdx cp ' ').length = d.resolution := by
    rw [List.length_map]; exact hlen
  have hrows2len : ((d.data.map fun row => row.insertIdx cp ' ').set i
      ((((d.data.map fun row => row.insertIdx cp ' ').getD i []).set j vJ).set
        (j + 1) vJ1)).length = d.resolution := by
    rw [List.length_set]; exact hrows1len
  have hins_skip : ∀ row : List Char, row.length = d.resolution →
      (row.insertIdx cp ' ').getD (if cp ≤ jOld then jOld + 1 else jOld) ' ' =
        row.getD jOld ' ' := by
    intro row hrl
    by_cases hcj : cp ≤ jOld
    · rw [if_pos hcj, getD_insertIdx _ _ _ _ (by omega), if_neg (by omega),
        if_neg (by omega)]
      congr 1
    · rw [if_neg hcj, getD_insertIdx _ _ _ _ (by omega), if_pos (by omega)]
  show ((((d.data.map fun row => row.insertIdx cp ' ').set i
      ((((d.data.map fun row => row.insertIdx cp ' ').getD i []).set j vJ).set
        (j + 1) vJ1)).insertIdx ir
      (stabExtraRow (d.resolution + 1) j eJ eJ1)).getD
      (if ir ≤ iOld then iOld + 1 else iOld) []).getD
      (if cp ≤ jOld then jOld + 1 else jOld) ' ' = getCell d iOld jOld
  have hrowpick : (((d.data.map fun row => row.insertIdx cp ' ').set i
      ((((d.data.map fun row => row.insertIdx cp ' ').getD i []).set j vJ).set
        (j + 1) vJ1)).insertIdx ir
      (stabExtraRow (d.resolution + 1) j eJ eJ1)).getD
      (if ir ≤ iOld then iOld + 1 else iOld) [] =
      ((d.data.map fun row => row.insertIdx cp ' ').set i
        ((((d.data.map fun row => row.insertIdx cp ' ').getD i []).set j vJ).set
          (j + 1) vJ1)).getD iOld [] := by
    rw [getD_insertIdx _ _ _ _ (by rw [hrows2len]; exact hirn)]
    by_cases hi1 : ir ≤ iOld
    · rw [if_pos hi1, if_neg (by omega), if_neg (by omega)]
      congr 1
    · rw [if_neg hi1, if_pos (by omega)]
  rw [hrowpick]
  by_cases hioi : iOld = i
  · subst hioi
    have hjoj : jOld ≠ j := fun h => hnotx ⟨rfl, h⟩
    rw [getD_set, if_pos ⟨rfl, by omega⟩]
    have hr1i : (d.data.map fun row => row.insertIdx cp ' ').getD iOld [] =
        (d.data.getD iOld []).insertIdx cp ' ' :=
      getD_map_of_lt _ d.data iOld (by omega) [] []
    have hcjne : (if cp ≤ jOld then jOld + 1 else jOld) ≠ j ∧
        (if cp ≤ jOld then jOld + 1 else jOld) ≠ j + 1 := by
      rcases hcp with h | h <;> by_cases hcj : cp ≤ jOld <;>
        simp only [hcj, if_true, if_false, if_pos, if_neg] <;> constructor <;> omega
    rw [getD_set, if_neg (by omega), getD_set, if_neg (by omega), hr1i]
    exact hins_skip _ (hrowlen iOld hio)
  · rw [getD_set, if_neg (by omega)]
    rw [getD_map_of_lt _ d.data iOld (by omega) [] []]
    exact hins_skip _ (hrowlen iOld hio)

/-- **C6.** For every valid diagram and `Stabilization{cardinality, i, j}`
with `i, j` in range: if cell `(i,j)` is not an OverMark the move fails
with `NotAnOverMark` and the grid is unchanged; otherwise it succeeds,
the resolution grows by exactly 1, the new diagram still has exactly one
`'x'` and one `'o'` in every row and column, and every cell other than
the replaced `(i,j)` holds its original marker at the position shifted by
the inserted row/column. -/
theorem stabilization_correct (d : Diagram) (hv : validate d = true)
    (hw : wellFormed d) (card : Cardinality) (i j : Nat)
    (hi : i < d.resolution) (hj : j < d.resolution) :
    (getCell d i j ≠ 'x' →
        applyMove d (.stabilization card i j) = (some .notAnOverMark, d)) ∧
      (getCell d i j = 'x' →
        applyMove d (.stabilization card i j) = (none, stabilized d card i j) ∧
          (stabilized d card i j).resolution = d.resolution + 1 ∧
          validate (stabilized d card i j) = true ∧
          ∀ iOld jOld, iOld < d.resolution → jOld < d.resolution →
            ¬(iOld = i ∧ jOld = j) →
              getCell (stabilized d card i j) (stabShiftRow card i iOld)
                  (stabShiftCol card j jOld) =
                getCell d iOld jOld) := by
  constructor
  · intro hnx
    simp [applyMove, hnx]
  · intro hx
    refine ⟨by simp [applyMove, hx], ?_, stabilized_validate d hv hw card i j hi hj hx, ?_⟩
    · cases card <;> rfl
    · intro iOld jOld hio hjo hnotx
      cases card
      · exact stab_preserve_core d hw i j (j + 1) (i + 1) ' ' 'x' 'x' 'o' hi hj
          (Or.inr rfl) (Or.inr rfl) iOld jOld hio hjo hnotx
      · exact stab_preserve_core d hw i j (j + 1) i ' ' 'x' 'x' 'o' hi hj
          (Or.inl rfl) (Or.inr rfl) iOld jOld hio hjo hnotx
      · exact stab_preserve_core d hw i j j (i + 1) 'x' ' ' 'o' 'x' hi hj
          (Or.inr rfl) (Or.inl rfl) iOld jOld hio hjo hnotx
      · exact stab_preserve_core d hw i j j i 'x' ' ' 'o' 'x' hi hj
          (Or.inl rfl) (Or.inl rfl) iOld jOld hio hjo hnotx

/-- Witness for C6: stabilizing the 2×2 diagram at its OverMark (0,0). -/
theorem stabilization_correct_witness :
    validate unknotDiagram = true ∧ wellFormed unknotDiagram ∧
      0 < unknotDiagram.resolution ∧
      ((getCell unknotDiagram 0 0 ≠ 'x' →
          applyMove unknotDiagram (.stabilization .nw 0 0) =
            (some .notAnOverMark, unknotDiagram)) ∧
        (getCell unknotDiagram 0 0 = 'x' →
          applyMove unknotDiagram (.stabilization .nw 0 0) =
              (none, stabilized unknotDiagram .nw 0 0) ∧
            (stabilized unknotDiagram .nw 0 0).resolution =
              unknotDiagram.resolution + 1 ∧
            validate (stabilized unknotDiagram .nw 0 0) = true ∧
            ∀ iOld jOld, iOld < unknotDiagram.resolution →
              jOld < unknotDiagram.resolution → ¬(iOld = 0 ∧ jOld = 0) →
                getCell (stabilized unknotDiagram .nw 0 0)
                    (stabShiftRow .nw 0 iOld) (stabShiftCol .nw 0 jOld) =
                  getCell unknotDiagram iOld jOld)) :=
  ⟨by decide, by decide, by decide,
    stabilization_correct unknotDiagram (by decide) (by decide) .nw 0 0
      (by decide) (by decide)⟩

/-! ## The base circuit walk (C1) -/

theorem findChar_lt_length (l : List Char) (c : Char) (h : 1 ≤ l.count c) :
    findChar c l < l.length := by
  unfold findChar
  rw [List.findIdx_lt_length]
  exact ⟨c, List.count_pos_iff.mp (by omega), by simp⟩

theorem getD_findChar (l : List Char) (c : Char) (h : 1 ≤ l.count c) :
    l.getD (findChar c l) ' ' = c := by
  have hlt := findChar_lt_length l c h
  rw [List.getD_eq_getElem _ _ hlt]
  have h2 := @List.findIdx_getElem _ (fun x => x == c) l hlt
  simpa using h2

theorem findChar_unique (l : List Char) (c : Char) (hne : (' ' == c) = false)
    (h : l.count c = 1) (p : Nat) (hp : p < l.length) (hv : l.getD p ' ' = c) :
    findChar c l = p := by
  by_contra hq
  have hql : findChar c l < l.length := findChar_lt_length l c (by omega)
  have h1 := count_set_getD l p ' ' hp c
  rw [hv, h, hne] at h1
  simp at h1
  have hmem : c ∈ l.set p ' ' := by
    have hgd : (l.set p ' ').getD (findChar c l) ' ' = c := by
      rw [getD_set, if_neg (by omega)]
      exact getD_findChar l c (by omega)
    rw [List.getD_eq_getElem _ _ (by rw [List.length_set]; omega)] at hgd
    rw [← hgd]
    exact List.getElem_mem _
  have := List.count_pos_iff.mpr hmem
  omega

theorem getColumn_getD (d : Diagram) (hw : wellFormed d) (r c : Nat)
    (hr : r < d.resolution) :
    (getColumn d c).getD r ' ' = getCell d r c := by
  unfold getColumn getCell
  exact getD_map_of_lt _ d.data r (by have h9 := hw.1; omega) ' ' []

theorem getColumn_length (d : Diagram) (hw : wellFormed d) (c : Nat) :
    (getColumn d c).length = d.resolution := by
  unfold getColumn
  rw [List.length_map, hw.1]

theorem getRow_length (d : Diagram) (hw : wellFormed d) (r : Nat)
    (hr : r < d.resolution) :
    (getRow d r).length = d.resolution := by
  unfold getRow
  have hmem : d.data.getD r [] ∈ d.data := by
    rw [List.getD_eq_getElem d.data [] (by have h9 := hw.1; omega)]
    exact List.getElem_mem _
  exact (hw.2 _ hmem).1

/-- In a valid diagram, `xRow d c` is the unique row with the `'x'` of
column `c`, and similarly for the other finders. -/
theorem xRow_spec (d : Diagram) (hv : validate d = true) (hw : wellFormed d)
    (c : Nat) (hc : c < d.resolution) :
    xRow d c < d.resolution ∧ getCell d (xRow d c) c = 'x' := by
  have hcount : (getColumn d c).count 'x' = 1 := ((validate_iff d).mp hv c hc).2.2.1
  have h1 : xRow d c < (getColumn d c).length := findChar_lt_length _ _ (by omega)
  rw [getColumn_length d hw] at h1
  refine ⟨h1, ?_⟩
  rw [← getColumn_getD d hw _ _ h1]
  exact getD_findChar _ _ (by omega)

theorem oRow_spec (d : Diagram) (hv : validate d = true) (hw : wellFormed d)
    (c : Nat) (hc : c < d.resolution) :
    oRow d c < d.resolution ∧ getCell d (oRow d c) c = 'o' := by
  have hcount : (getColumn d c).count 'o' = 1 := ((validate_iff d).mp hv c hc).2.2.2
  have h1 : oRow d c < (getColumn d c).length := findChar_lt_length _ _ (by omega)
  rw [getColumn_length d hw] at h1
  refine ⟨h1, ?_⟩
  rw [← getColumn_getD d hw _ _ h1]
  exact getD_findChar _ _ (by omega)

theorem xCol_spec (d : Diagram) (hv : validate d = true) (hw : wellFormed d)
    (r : Nat) (hr : r < d.resolution) :
    xCol d r < d.resolution ∧ getCell d r (xCol d r) = 'x' := by
  have hcount : (getRow d r).count 'x' = 1 := ((validate_iff d).mp hv r hr).1
  have h1 : xCol d r < (getRow d r).length := findChar_lt_length _ _ (by omega)
  rw [getRow_length d hw r hr] at h1
  have h2 := getD_findChar (getRow d r) 'x' (by omega)
  exact ⟨h1, h2⟩

theorem xRow_unique (d : Diagram) (hv : validate d = true) (hw : wellFormed d)
    (r c : Nat) (hr : r < d.resolution) (hc : c < d.resolution)
    (hcell : getCell d r c = 'x') : xRow d c = r := by
  have hcount : (getColumn d c).count 'x' = 1 := ((validate_iff d).mp hv c hc).2.2.1
  exact findChar_unique (getColumn d c) 'x' rfl hcount r
    (by rw [getColumn_length d hw]; omega)
    (by rw [getColumn_getD d hw _ _ hr]; exact hcell)

/-- The marked cells of one column are distinct. -/
theorem xRow_ne_oRow (d : Diagram) (hv : validate d = true) (hw : wellFormed d)
    (c : Nat) (hc : c < d.resolution) : xRow d c ≠ oRow d c := by
  intro h
  have h1 := (xRow_spec d hv hw c hc).2
  have h2 := (oRow_spec d hv hw c hc).2
  rw [h] at h1
  rw [h1] at h2
  exact absurd h2 (by decide)

/-- The successor column's `'x'` sits in the row of the predecessor's
`'o'`. -/
theorem xRow_sigmaCol (d : Diagram) (hv : validate d = true) (hw : wellFormed d)
    (c : Nat) (hc : c < d.resolution) :
    xRow d (sigmaCol d c) = oRow d c ∧ sigmaCol d c < d.resolution := by
  have ho := oRow_spec d hv hw c hc
  have hx := xCol_spec d hv hw (oRow d c) ho.1
  exact ⟨xRow_unique d hv hw (oRow d c) (sigmaCol d c) ho.1 hx.1 hx.2, hx.1⟩

/-- Decoding an in-range absolute index. -/
theorem decode_abs (n r c : Nat) (hn : 0 < n) (hr : r < n) :
    convertToAbsoluteIndex n r c % n = r ∧ convertToAbsoluteIndex n r c / n = c := by
  unfold convertToAbsoluteIndex
  constructor
  · rw [Nat.add_mul_mod_self_right, Nat.mod_eq_of_lt hr]
  · rw [Nat.add_mul_div_right _ _ hn, Nat.div_eq_of_lt hr, Nat.zero_add]

theorem mem_visitedCells (d : Diagram) (t a : Nat) :
    a ∈ visitedCells d t ↔
      ∃ k < t, a = xCellAbs d ((sigmaCol d)^[k] 0) ∨
        a = oCellAbs d ((sigmaCol d)^[k] 0) := by
  unfold visitedCells
  rw [List.mem_flatMap]
  constructor
  · rintro ⟨c, hc, hmem⟩
    rw [List.mem_map] at hc
    obtain ⟨k, hk, rfl⟩ := hc
    rw [List.mem_range] at hk
    simp only [List.mem_cons, List.mem_singleton, List.not_mem_nil, or_false] at hmem
    exact ⟨k, hk, by tauto⟩
  · rintro ⟨k, hk, hor⟩
    refine ⟨(sigmaCol d)^[k] 0, List.mem_map.mpr ⟨k, List.mem_range.mpr hk, rfl⟩, ?_⟩
    simp only [List.mem_cons, List.mem_singleton]
    tauto

theorem iterate_pred (f : Nat → Nat) (t : Nat) (ht : 1 ≤ t) (x : Nat) :
    f (f^[t - 1] x) = f^[t] x := by
  obtain ⟨s, rfl⟩ : ∃ s, t = s + 1 := ⟨t - 1, by omega⟩
  rw [Function.iterate_succ_apply']
  simp

theorem baseCircuitAux_step_h (d : Diagram) (tie f e : Nat) (topo : List Nat) :
    baseCircuitAux d tie (f + 1) e true topo =
      if convertToAbsoluteIndex d.resolution e (findChar 'x' (getRow d e)) ∈ topo
      then topo ++ [tie]
      else baseCircuitAux d tie f (findChar 'x' (getRow d e)) false
        (topo ++ [convertToAbsoluteIndex d.resolution e (findChar 'x' (getRow d e))]) :=
  rfl

theorem baseCircuitAux_step_v (d : Diagram) (tie f e : Nat) (topo : List Nat) :
    baseCircuitAux d tie (f + 1) e false topo =
      if convertToAbsoluteIndex d.resolution (findChar 'o' (getColumn d e)) e ∈ topo
      then topo ++ [tie]
      else baseCircuitAux d tie f (findChar 'o' (getColumn d e)) true
        (topo ++ [convertToAbsoluteIndex d.resolution (findChar 'o' (getColumn d e)) e]) :=
  rfl

theorem visitedCells_succ (d : Diagram) (t : Nat) :
    visitedCells d (t + 1) =
      (visitedCells d t ++ [xCellAbs d ((sigmaCol d)^[t] 0)]) ++
        [oCellAbs d ((sigmaCol d)^[t] 0)] := by
  unfold visitedCells
  rw [List.range_succ, List.map_append, List.flatMap_append]
  simp

/-- The walk of `generate_knot`, started after column 0's two cells, runs
along the σ-orbit of column 0, pushing each visited column's `'x'` and
`'o'` cells, and closes with `tie` the moment it returns to column 0's
`'x'`. -/
theorem baseCircuitAux_closes (d : Diagram) (hv : validate d = true)
    (hw : wellFormed d) (hn : 0 < d.resolution) (m : Nat) (hm1 : 1 ≤ m)
    (horb : (sigmaCol d)^[m] 0 = 0)
    (hnodup : ((List.range m).map fun k => (sigmaCol d)^[k] 0).Nodup) :
    ∀ k fuel t, 1 ≤ t → t ≤ m → m - t = k → 2 * k + 1 ≤ fuel →
      baseCircuitAux d (xRow d 0) fuel (oRow d ((sigmaCol d)^[t - 1] 0)) true
          (visitedCells d t) =
        visitedCells d m ++ [xRow d 0] := by
  have horblt : ∀ k, (sigmaCol d)^[k] 0 < d.resolution := by
    intro k
    induction k with
    | zero => simpa using hn
    | succ k ih =>
      rw [Function.iterate_succ_apply']
      exact (xRow_sigmaCol d hv hw _ ih).2
  have horbinj : ∀ k1 k2, k1 < m → k2 < m →
      (sigmaCol d)^[k1] 0 = (sigmaCol d)^[k2] 0 → k1 = k2 := by
    intro k1 k2 h1 h2 he
    have hk1l : k1 < ((List.range m).map fun k => (sigmaCol d)^[k] 0).length := by
      simp [h1]
    have hk2l : k2 < ((List.range m).map fun k => (sigmaCol d)^[k] 0).length := by
      simp [h2]
    have e1 : (((List.range m).map fun k => (sigmaCol d)^[k] 0))[k1] =
        (sigmaCol d)^[k1] 0 := by simp
    have e2 : (((List.range m).map fun k => (sigmaCol d)^[k] 0))[k2] =
        (sigmaCol d)^[k2] 0 := by simp
    exact (hnodup.getElem_inj_iff).mp (by rw [e1, e2]; exact he)
  have hdecx : ∀ k, xCellAbs d ((sigmaCol d)^[k] 0) / d.resolution =
      (sigmaCol d)^[k] 0 := fun k =>
    (decode_abs _ _ _ hn (xRow_spec d hv hw _ (horblt k)).1).2
  have hdeco : ∀ k, oCellAbs d ((sigmaCol d)^[k] 0) / d.resolution =
      (sigmaCol d)^[k] 0 := fun k =>
    (decode_abs _ _ _ hn (oRow_spec d hv hw _ (horblt k)).1).2
  have hxnot : ∀ t, t < m → xCellAbs d ((sigmaCol d)^[t] 0) ∉ visitedCells d t := by
    intro t htm hmem
    obtain ⟨k', hk', hor⟩ := (mem_visitedCells d t _).mp hmem
    have hcol : (sigmaCol d)^[t] 0 = (sigmaCol d)^[k'] 0 := by
      rcases hor with h | h
      · have := congrArg (· / d.resolution) h
        simpa [hdecx] using this
      · have := congrArg (· / d.resolution) h
        simpa [hdecx, hdeco] using this
    have := horbinj t k' htm (by omega) hcol
    omega
  have honot : ∀ t, t < m →
      oCellAbs d ((sigmaCol d)^[t] 0) ∉
        visitedCells d t ++ [xCellAbs d ((sigmaCol d)^[t] 0)] := by
    intro t htm hmem
    rw [List.mem_append] at hmem
    rcases hmem with hmem | hmem
    · obtain ⟨k', hk', hor⟩ := (mem_visitedCells d t _).mp hmem
      have hcol : (sigmaCol d)^[t] 0 = (sigmaCol d)^[k'] 0 := by
        rcases hor with h | h
        · have := congrArg (· / d.resolution) h
          simpa [hdecx, hdeco] using this
        · have := congrArg (· / d.resolution) h
          simpa [hdeco] using this
      have := horbinj t k' htm (by omega) hcol
      omega
    · rw [List.mem_singleton] at hmem
      have h3 : oCellAbs d ((sigmaCol d)^[t] 0) % d.resolution =
          xCellAbs d ((sigmaCol d)^[t] 0) % d.resolution := by rw [hmem]
      have hx := (decode_abs d.resolution (xRow d ((sigmaCol d)^[t] 0))
        ((sigmaCol d)^[t] 0) hn (xRow_spec d hv hw _ (horblt t)).1).1
      have ho := (decode_abs d.resolution (oRow d ((sigmaCol d)^[t] 0))
        ((sigmaCol d)^[t] 0) hn (oRow_spec d hv hw _ (horblt t)).1).1
      unfold oCellAbs xCellAbs at h3
      rw [hx, ho] at h3
      exact xRow_ne_oRow d hv hw _ (horblt t) h3.symm
  intro k
  induction k with
  | zero =>
    intro fuel t ht1 ht2 htk hfuel
    have htm : t = m := by omega
    subst htm
    obtain ⟨f, rfl⟩ : ∃ f, fuel = f + 1 := ⟨fuel - 1, by omega⟩
    rw [baseCircuitAux_step_h]
    have hnext : findChar 'x' (getRow d (oRow d ((sigmaCol d)^[t - 1] 0))) = 0 := by
      show sigmaCol d ((sigmaCol d)^[t - 1] 0) = 0
      rw [iterate_pred (sigmaCol d) t ht1]
      exact horb
    rw [hnext]
    have heq : oRow d ((sigmaCol d)^[t - 1] 0) = xRow d 0 := by
      have h1 := (xRow_sigmaCol d hv hw ((sigmaCol d)^[t - 1] 0) (horblt (t - 1))).1
      have h2 : sigmaCol d ((sigmaCol d)^[t - 1] 0) = 0 := by
        rw [iterate_pred (sigmaCol d) t ht1]
        exact horb
      rw [h2] at h1
      exact h1.symm
    rw [heq]
    have hmem : convertToAbsoluteIndex d.resolution (xRow d 0) 0 ∈ visitedCells d t := by
      rw [mem_visitedCells]
      exact ⟨0, by omega, Or.inl (by simp [xCellAbs])⟩
    rw [if_pos hmem]
  | succ k ih =>
    intro fuel t ht1 ht2 htk hfuel
    have htm : t < m := by omega
    obtain ⟨f, rfl⟩ : ∃ f, fuel = f + 1 + 1 := ⟨fuel - 2, by omega⟩
    rw [baseCircuitAux_step_h]
    have hnext : findChar 'x' (getRow d (oRow d ((sigmaCol d)^[t - 1] 0))) =
        (sigmaCol d)^[t] 0 := by
      show sigmaCol d ((sigmaCol d)^[t - 1] 0) = (sigmaCol d)^[t] 0
      exact iterate_pred (sigmaCol d) t ht1 0
    rw [hnext]
    have hxr : xRow d ((sigmaCol d)^[t] 0) = oRow d ((sigmaCol d)^[t - 1] 0) := by
      have h1 := (xRow_sigmaCol d hv hw ((sigmaCol d)^[t - 1] 0) (horblt (t - 1))).1
      have h2 : sigmaCol d ((sigmaCol d)^[t - 1] 0) = (sigmaCol d)^[t] 0 :=
        iterate_pred (sigmaCol d) t ht1 0
      rw [h2] at h1
      exact h1
    have habs : convertToAbsoluteIndex d.resolution (oRow d ((sigmaCol d)^[t - 1] 0))
        ((sigmaCol d)^[t] 0) = xCellAbs d ((sigmaCol d)^[t] 0) := by
      unfold xCellAbs
      rw [hxr]
    rw [habs]
    rw [if_neg (hxnot t htm)]
    rw [baseCircuitAux_step_v]
    have habs2 : convertToAbsoluteIndex d.resolution
        (findChar 'o' (getColumn d ((sigmaCol d)^[t] 0))) ((sigmaCol d)^[t] 0) =
        oCellAbs d ((sigmaCol d)^[t] 0) := rfl
    rw [habs2]
    rw [if_neg (honot t htm)]
    have hvis : (visitedCells d t ++ [xCellAbs d ((sigmaCol d)^[t] 0)]) ++
        [oCellAbs d ((sigmaCol d)^[t] 0)] = visitedCells d (t + 1) :=
      (visitedCells_succ d t).symm
    rw [hvis]
    have hox : findChar 'o' (getColumn d ((sigmaCol d)^[t] 0)) =
        oRow d ((sigmaCol d)^[t + 1 - 1] 0) := rfl
    rw [hox]
    exact ih f (t + 1) (by omega) (by omega) (by omega) (by omega)

/-- For a valid, connected diagram the base circuit is exactly the cells
of all `n` columns in walk order, closed with column 0's `'x'`. -/
theorem baseCircuit_eq_of_connected (d : Diagram) (hv : validate d = true)
    (hw : wellFormed d) (hn : 0 < d.resolution) (hc : connectedDiagram d) :
    baseCircuit d = visitedCells d d.resolution ++ [xRow d 0] := by
  unfold baseCircuit
  dsimp only
  have hinit : [convertToAbsoluteIndex d.resolution (findChar 'x' (getColumn d 0)) 0,
      convertToAbsoluteIndex d.resolution (findChar 'o' (getColumn d 0)) 0] =
      visitedCells d 1 := by
    unfold visitedCells xCellAbs oCellAbs xRow oRow
    simp
  rw [hinit]
  have h1 := baseCircuitAux_closes d hv hw hn d.resolution (by omega) hc.2 hc.1
    (d.resolution - 1) (2 * d.resolution + 2) 1 (by omega) (by omega) (by omega)
    (by omega)
  have h2 : (sigmaCol d)^[1 - 1] 0 = 0 := rfl
  rw [h2] at h1
  exact h1

theorem length_visitedCells (d : Diagram) (t : Nat) :
    (visitedCells d t).length = 2 * t := by
  induction t with
  | zero => rfl
  | succ t ih =>
    rw [visitedCells_succ]
    simp only [List.length_append, List.length_singleton, ih]
    omega

/-- **C1 (amended).** For every valid diagram whose mark matching is a
single cycle through all `n` columns (a connected diagram — one knot
component), the base circuit built by `generate_knot` before crossing
insertion has length exactly `2n + 1`, and its first and last entries are
the same absolute index (column 0's OverMark cell). -/
theorem base_circuit_of_connected (d : Diagram) (hv : validate d = true)
    (hw : wellFormed d) (hn : 0 < d.resolution) (hc : connectedDiagram d) :
    (baseCircuit d).length = 2 * d.resolution + 1 ∧
      (baseCircuit d).head? = some (xCellAbs d 0) ∧
      (baseCircuit d).getLast? = some (xCellAbs d 0) := by
  rw [baseCircuit_eq_of_connected d hv hw hn hc]
  refine ⟨?_, ?_, ?_⟩
  · rw [List.length_append, length_visitedCells]
    simp
  · obtain ⟨t, ht⟩ : ∃ t, d.resolution = t + 1 := ⟨d.resolution - 1, by omega⟩
    rw [ht]
    unfold visitedCells
    rw [List.range_succ_eq_map]
    simp only [List.map_cons, List.flatMap_cons, Function.iterate_zero_apply]
    have : xCellAbs d 0 + 0 * d.resolution = xCellAbs d 0 := by omega
    simp [xCellAbs]
  · rw [List.getLast?_concat]
    unfold xCellAbs convertToAbsoluteIndex
    simp

/-- Counterexample to C1 as stated: a valid 4×4 diagram (two disjoint
2×2 unknot blocks — a two-component link) whose base circuit has length
5, not `2·4 + 1 = 9`. -/
theorem base_circuit_counterexample :
    validate twoComponentDiagram = true ∧ wellFormed twoComponentDiagram ∧
      0 < twoComponentDiagram.resolution ∧
      (baseCircuit twoComponentDiagram).length ≠
        2 * twoComponentDiagram.resolution + 1 ∧
      (baseCircuit twoComponentDiagram).length = 5 := by
  decide

/-- Witness for the amended C1 on the 2×2 unknot diagram. -/
theorem base_circuit_of_connected_witness :
    validate unknotDiagram = true ∧ wellFormed unknotDiagram ∧
      0 < unknotDiagram.resolution ∧ connectedDiagram unknotDiagram ∧
      ((baseCircuit unknotDiagram).length = 2 * unknotDiagram.resolution + 1 ∧
        (baseCircuit unknotDiagram).head? = some (xCellAbs unknotDiagram 0) ∧
        (baseCircuit unknotDiagram).getLast? = some (xCellAbs unknotDiagram 0)) :=
  ⟨by decide, by decide, by decide, by decide,
    base_circuit_of_connected unknotDiagram (by decide) (by decide) (by decide)
      (by decide)⟩

/-! ## Crossing detection (C2) -/

/-- The code's crossing test on the direction-normalised edges decides
exactly the spec's transversality condition. -/
theorem rowCrossesColumn_iff (n : Nat) (hn : 0 < n) (cc rc : Nat × Nat)
    (hccshape : cc.1 / n = cc.2 / n) (hrcshape : rc.1 % n = rc.2 % n) :
    (rowCrossesColumn n (if cc.1 > cc.2 then cc.2 else cc.1)
        (if cc.1 > cc.2 then cc.1 else cc.2) (if rc.1 > rc.2 then rc.2 else rc.1)
        (if rc.1 > rc.2 then rc.1 else rc.2) ↔
      crossesTransversally n cc rc) := by
  have hm1 : rc.1 ≤ rc.2 → rc.1 / n ≤ rc.2 / n := fun h => Nat.div_le_div_right h
  have hm2 : rc.2 ≤ rc.1 → rc.2 / n ≤ rc.1 / n := fun h => Nat.div_le_div_right h
  have hb1 : cc.1 % n < n := Nat.mod_lt _ hn
  have hb2 : cc.2 % n < n := Nat.mod_lt _ hn
  have hd1 := Nat.div_add_mod cc.1 n
  have hd2 := Nat.div_add_mod cc.2 n
  rw [hccshape] at hd1
  unfold rowCrossesColumn crossesTransversally
  generalize n * (cc.2 / n) = P at hd1 hd2
  by_cases h1 : cc.1 > cc.2 <;> by_cases h2 : rc.1 > rc.2 <;>
    simp only [h1, h2, if_true, if_false] <;> omega

theorem mem_spliceCode_of_mem (topo : List Nat) (a b x : Nat) (ins : List Nat)
    (hx : x ∈ topo) : x ∈ spliceCode topo a b ins := by
  unfold spliceCode
  cases hf : topo.findIdx? fun node => node == a || node == b with
  | none => exact hx
  | some q =>
    have hq : q < topo.length := (List.findIdx?_eq_some_iff_findIdx_eq.mp hf).1
    dsimp only
    rw [foldl_insertIdx (q + 1) ins topo (by omega)]
    have hx2 : x ∈ topo.take (q + 1) ++ topo.drop (q + 1) := by
      rw [List.take_append_drop]
      exact hx
    rw [List.mem_append] at hx2
    rw [List.mem_append, List.mem_append]
    tauto

theorem mem_spliceCode_of_mem_ins (topo : List Nat) (a b x : Nat) (ins : List Nat)
    (hfound : ∃ y ∈ topo, (y == a || y == b) = true) (hx : x ∈ ins) :
    x ∈ spliceCode topo a b ins := by
  unfold spliceCode
  have hlt : topo.findIdx (fun node => node == a || node == b) < topo.length :=
    List.findIdx_lt_length.mpr hfound
  have hf : topo.findIdx? (fun node => node == a || node == b) =
      some (topo.findIdx fun node => node == a || node == b) :=
    List.findIdx?_eq_some_iff_findIdx_eq.mpr ⟨hlt, rfl⟩
  rw [hf]
  dsimp only
  rw [foldl_insertIdx _ ins topo (by omega)]
  simp [List.mem_append, hx]

theorem mem_processColumn_topo (n : Nat) (rows : List (Nat × Nat))
    (st : List Nat × List Nat) (cc : Nat × Nat) (x : Nat) (hx : x ∈ st.1) :
    x ∈ (processColumn n rows st cc).1 :=
  mem_spliceCode_of_mem _ _ _ _ _ hx

theorem mem_foldl_processColumn_topo (n : Nat) (rows : List (Nat × Nat)) :
    ∀ (cols : List (Nat × Nat)) (st : List Nat × List Nat) (x : Nat), x ∈ st.1 →
      x ∈ (cols.foldl (processColumn n rows) st).1 := by
  intro cols
  induction cols with
  | nil => intro st x hx; exact hx
  | cons c cs ih =>
    intro st x hx
    exact ih (processColumn n rows st c) x (mem_processColumn_topo n rows st c x hx)

theorem mem_foldl_processColumn_lifted (n : Nat) (rows : List (Nat × Nat)) :
    ∀ (cols : List (Nat × Nat)) (st : List Nat × List Nat) (x : Nat), x ∈ st.2 →
      x ∈ (cols.foldl (processColumn n rows) st).2 := by
  intro cols
  induction cols with
  | nil => intro st x hx; exact hx
  | cons c cs ih =>
    intro st x hx
    refine ih (processColumn n rows st c) x ?_
    show x ∈ st.2 ++ _
    rw [List.mem_append]
    exact Or.inl hx

theorem mem_chunks2 : ∀ (l : List Nat) (p : Nat × Nat), p ∈ chunks2 l →
    p.1 ∈ l ∧ p.2 ∈ l := by
  intro l
  induction l using chunks2.induct with
  | case1 a b rest ih =>
    intro p hp
    rw [chunks2, List.mem_cons] at hp
    rcases hp with rfl | hp
    · simp
    · have := ih p hp
      simp only [List.mem_cons]
      tauto
  | case2 l h =>
    intro p hp
    cases l with
    | nil => simp [chunks2] at hp
    | cons a rest =>
      cases rest with
      | nil => simp [chunks2] at hp
      | cons b rest2 => exact absurd rfl (h a b rest2)

/-- **C2.** For every diagram and every column-edge / row-edge pair of
its circuit: the crossing test of `generate_knot` holds exactly when the
two edges' projections cross transversally in the spec's sense (each
edge's fixed coordinate strictly between the other edge's endpoint
bounds), and for every such intersection the absolute index at
(row-edge's row, column-edge's column) is both inserted into the
resolved circuit and added to `lifted`. -/
theorem crossing_detection_correct (d : Diagram) (hn : 0 < d.resolution)
    (cc rc : Nat × Nat)
    (hcc : cc ∈ chunks2 (knotCols d)) (hrc : rc ∈ chunks2 (knotRows d))
    (hccshape : cc.1 / d.resolution = cc.2 / d.resolution)
    (hrcshape : rc.1 % d.resolution = rc.2 % d.resolution) :
    (rowCrossesColumn d.resolution (if cc.1 > cc.2 then cc.2 else cc.1)
        (if cc.1 > cc.2 then cc.1 else cc.2) (if rc.1 > rc.2 then rc.2 else rc.1)
        (if rc.1 > rc.2 then rc.1 else rc.2) ↔
      crossesTransversally d.resolution cc rc) ∧
    (rowCrossesColumn d.resolution (if cc.1 > cc.2 then cc.2 else cc.1)
        (if cc.1 > cc.2 then cc.1 else cc.2) (if rc.1 > rc.2 then rc.2 else rc.1)
        (if rc.1 > rc.2 then rc.1 else rc.2) →
      convertToAbsoluteIndex d.resolution
          ((if rc.1 > rc.2 then rc.2 else rc.1) % d.resolution)
          ((if cc.1 > cc.2 then cc.2 else cc.1) / d.resolution) ∈
          (resolvedCircuit d).1 ∧
        convertToAbsoluteIndex d.resolution
            ((if rc.1 > rc.2 then rc.2 else rc.1) % d.resolution)
            ((if cc.1 > cc.2 then cc.2 else cc.1) / d.resolution) ∈
          (resolvedCircuit d).2) := by
  refine ⟨rowCrossesColumn_iff d.resolution hn cc rc hccshape hrcshape, ?_⟩
  intro hcross
  -- the produced intersection pair
  have hpair : ((if rc.1 > rc.2 then rc.2 else rc.1) % d.resolution,
      convertToAbsoluteIndex d.resolution
        ((if rc.1 > rc.2 then rc.2 else rc.1) % d.resolution)
        ((if cc.1 > cc.2 then cc.2 else cc.1) / d.resolution)) ∈
      columnIntersections d.resolution (chunks2 (knotRows d))
        (if cc.1 > cc.2 then cc.2 else cc.1) (if cc.1 > cc.2 then cc.1 else cc.2) := by
    unfold columnIntersections
    rw [List.mem_filterMap]
    exact ⟨rc, hrc, by rw [if_pos hcross]⟩
  obtain ⟨l1, l2, hsplit⟩ := List.append_of_mem hcc
  have hccmem := mem_chunks2 (knotCols d) cc hcc
  have hbase1 : cc.1 ∈ baseCircuit d := by
    have := hccmem.1
    unfold knotCols at this
    exact (List.dropLast_sublist _).subset this
  have hbase2 : cc.2 ∈ baseCircuit d := by
    have := hccmem.2
    unfold knotCols at this
    exact (List.dropLast_sublist _).subset this
  unfold resolvedCircuit insertCrossings
  rw [hsplit, List.foldl_append, List.foldl_cons]
  set st1 := l1.foldl (processColumn d.resolution (chunks2 (knotRows d)))
    (baseCircuit d, ([] : List Nat)) with hst1
  have hcolS_mem : (if cc.1 > cc.2 then cc.2 else cc.1) ∈ st1.1 := by
    apply mem_foldl_processColumn_topo
    by_cases h : cc.1 > cc.2 <;> simp [h, hbase1, hbase2]
  have hmem_sorted : convertToAbsoluteIndex d.resolution
      ((if rc.1 > rc.2 then rc.2 else rc.1) % d.resolution)
      ((if cc.1 > cc.2 then cc.2 else cc.1) / d.resolution) ∈
      ((if (decide (cc.1 > cc.2)) = true
        then sortByKey (columnIntersections d.resolution (chunks2 (knotRows d))
          (if cc.1 > cc.2 then cc.2 else cc.1) (if cc.1 > cc.2 then cc.1 else cc.2))
        else (sortByKey (columnIntersections d.resolution (chunks2 (knotRows d))
          (if cc.1 > cc.2 then cc.2 else cc.1)
          (if cc.1 > cc.2 then cc.1 else cc.2))).reverse).map (·.2)) := by
    rw [List.mem_map]
    refine ⟨((if rc.1 > rc.2 then rc.2 else rc.1) % d.resolution,
      convertToAbsoluteIndex d.resolution
        ((if rc.1 > rc.2 then rc.2 else rc.1) % d.resolution)
        ((if cc.1 > cc.2 then cc.2 else cc.1) / d.resolution)), ?_, rfl⟩
    by_cases h : cc.1 > cc.2
    · rw [if_pos (by simp [h])]
      unfold sortByKey
      rw [List.mem_insertionSort]
      exact hpair
    · rw [if_neg (by simp [h])]
      rw [List.mem_reverse]
      unfold sortByKey
      rw [List.mem_insertionSort]
      exact hpair
  constructor
  · apply mem_foldl_processColumn_topo
    show _ ∈ (processColumn d.resolution (chunks2 (knotRows d)) st1 cc).1
    apply mem_spliceCode_of_mem_ins
    · exact ⟨_, hcolS_mem, by simp⟩
    · exact hmem_sorted
  · apply mem_foldl_processColumn_lifted
    show _ ∈ (processColumn d.resolution (chunks2 (knotRows d)) st1 cc).2
    show _ ∈ st1.2 ++ _
    rw [List.mem_append]
    right
    rw [List.mem_map]
    exact ⟨_, hpair, rfl⟩

/-- Witness for C2: a crossing edge pair of the trefoil diagram (the
column-edge `(12,14)` and row-edge `(8,18)` cross at absolute index 13). -/
theorem crossing_detection_correct_witness :
    0 < trefoilDiagram.resolution ∧
      ((12, 14) : Nat × Nat) ∈ chunks2 (knotCols trefoilDiagram) ∧
      ((8, 18) : Nat × Nat) ∈ chunks2 (knotRows trefoilDiagram) ∧
      (12 : Nat) / trefoilDiagram.resolution = 14 / trefoilDiagram.resolution ∧
      (8 : Nat) % trefoilDiagram.resolution = 18 % trefoilDiagram.resolution ∧
      ((rowCrossesColumn trefoilDiagram.resolution
          (if (12 : Nat) > 14 then 14 else 12) (if (12 : Nat) > 14 then 12 else 14)
          (if (8 : Nat) > 18 then 18 else 8) (if (8 : Nat) > 18 then 8 else 18) ↔
        crossesTransversally trefoilDiagram.resolution (12, 14) (8, 18)) ∧
        (rowCrossesColumn trefoilDiagram.resolution
            (if (12 : Nat) > 14 then 14 else 12) (if (12 : Nat) > 14 then 12 else 14)
            (if (8 : Nat) > 18 then 18 else 8) (if (8 : Nat) > 18 then 8 else 18) →
          convertToAbsoluteIndex trefoilDiagram.resolution
              ((if (8 : Nat) > 18 then 18 else 8) % trefoilDiagram.resolution)
              ((if (12 : Nat) > 14 then 14 else 12) / trefoilDiagram.resolution) ∈
              (resolvedCircuit trefoilDiagram).1 ∧
            convertToAbsoluteIndex trefoilDiagram.resolution
                ((if (8 : Nat) > 18 then 18 else 8) % trefoilDiagram.resolution)
                ((if (12 : Nat) > 14 then 14 else 12) / trefoilDiagram.resolution) ∈
              (resolvedCircuit trefoilDiagram).2)) :=
  ⟨by decide, by decide, by decide, by decide, by decide,
    crossing_detection_correct trefoilDiagram (by decide) (12, 14) (8, 18)
      (by decide) (by decide) (by decide) (by decide)⟩

/-- **C4.** On the 2×2 diagram with OverMarks at (0,0), (1,1) and
UnderMarks at (1,0), (0,1) — a valid diagram — `generate_knot` builds the
base circuit `[idx(0,0), idx(1,0), idx(1,1), idx(0,1), idx(0,0)]`
`= [0, 1, 3, 2, 0]` of length 5, detects no crossings (the resolved
circuit equals the base circuit), and leaves `lifted` empty. -/
theorem generate_knot_unknot_2x2 :
    validate unknotDiagram = true ∧ wellFormed unknotDiagram ∧
      baseCircuit unknotDiagram =
        [convertToAbsoluteIndex 2 0 0, convertToAbsoluteIndex 2 1 0,
          convertToAbsoluteIndex 2 1 1, convertToAbsoluteIndex 2 0 1,
          convertToAbsoluteIndex 2 0 0] ∧
      baseCircuit unknotDiagram = [0, 1, 3, 2, 0] ∧
      resolvedCircuit unknotDiagram = ([0, 1, 3, 2, 0], []) := by
  decide

end Knots
